import Mathlib

/-!
Waveform rendering and capture history of glscopeclient: a shallow embedding of
`glscopeclient/WaveformArea_rendering.cpp` and `glscopeclient/HistoryWindow.cpp`.
Definitions come first, lemmas and theorems after them.

Conventions of the embedding:

* `float` and `double` values are exact rationals (`ℚ`): every statement below is a
  statement over exact arithmetic, floating-point rounding is not modelled. The one exception
  is the loop variable `dv` of the grid loop of `RenderGrid`, a single-precision `float`:
  `dv += selected_step` rounds to the nearest single-precision value (`roundF32`), because
  whether that loop ends depends on it;
* `int`, `int64_t` and `size_t` values are unbounded integers / naturals; the conversion of a
  real to an integer type truncates toward zero, as the language specifies (`truncToInt`);
  integer division truncates toward zero (`Int.tdiv`). The `int64_t` results of
  `PixelsToXAxisUnits` and `XPositionToXAxisUnits` are bounded: they are defined only when
  they fit 64 bits (`toInt64`, `addInt64`);
* the member variables a function reads or writes are fields of the state record
  `WaveformArea`; a member function is a function on that record;
* the OpenGL / Cairo calls of `on_render` are recorded as a log of stage calls (`Stage`);
  the timing counters (`GetTime`) are not modelled.
-/

namespace WaveformArea

/-! ## Data model -/

/-- Modelled from the spec: the sample type of a capture is declared in a header that is not
among the sources. Section 3: each sample has a start offset (signed integer, time units),
a duration (integer, time units) and a value (real for analog). -/
structure AnalogSample where
  m_offset : Int
  m_duration : Int
  m_sample : ℚ
  deriving DecidableEq, Repr

/-- Modelled from the spec: the capture type is declared in a header that is not among the
sources. Section 3: an ordered sequence of samples, a time-scale and a trigger-phase.
`PrepareGeometry` reads `m_timescale`, `m_triggerPhase`, `size()`, `GetSampleStart(j)` and
`data[j]`. -/
structure AnalogCapture where
  m_timescale : Int
  m_triggerPhase : ℚ
  m_samples : List AnalogSample
  deriving DecidableEq, Repr

/-- What `m_channel->GetData()` can point to: nothing, an analog capture (the only kind for
which `dynamic_cast<AnalogCapture*>` is non-null), or a capture of another kind. -/
inductive CaptureData where
  | null
  | analog (data : AnalogCapture)
  | other
  deriving DecidableEq, Repr

/-- The part of the channel the renderer reads: `GetData()`, `GetOffset()`,
`GetVoltageRange()`. -/
structure Channel where
  data : CaptureData
  offset : ℚ
  voltageRange : ℚ
  deriving DecidableEq, Repr

/-- The shared horizontal mapping of the group (`m_group`). -/
structure WaveformGroup where
  m_pixelsPerXUnit : ℚ
  m_xAxisOffset : Int
  deriving DecidableEq, Repr

end WaveformArea

/-- The member variables of a `WaveformArea` the embedded functions read or write.
`isEye` / `isWaterfall` are the results of `IsEye()` / `IsWaterfall()`, which are defined
outside the sources and are constant during a frame. -/
structure WaveformArea where
  m_channel : WaveformArea.Channel
  m_group : WaveformArea.WaveformGroup
  m_width : Nat
  m_height : Int
  m_padding : Int
  m_plotRight : Int
  m_pixelsPerVolt : ℚ
  m_xoff : ℚ
  m_traceBuffer : List ℚ
  m_indexBuffer : List Nat
  m_waveformLength : Nat
  m_geometryOK : Bool
  m_geometryDirty : Bool
  m_firstFrame : Bool
  isEye : Bool
  isWaterfall : Bool
  deriving DecidableEq, Repr

namespace WaveformArea

/-! ## PrepareGeometry -/

/-- The vertex loop (source lines 103-107): sample `j` contributes
`m_traceBuffer[j*2] = GetSampleStart(j) * xscale + m_xoff` and
`m_traceBuffer[j*2+1] = m_pixelsPerVolt * (data[j] + offset) + m_height/2`
(`m_height/2` is an integer division). -/
def vertexLoop (xscale m_xoff m_pixelsPerVolt offset : ℚ) (m_height : Int) :
    List AnalogSample → List ℚ
  | [] => []
  | s :: rest =>
    ((s.m_offset : ℚ) * xscale + m_xoff) ::
    (m_pixelsPerVolt * (s.m_sample + offset) + ((Int.tdiv m_height 2 : Int) : ℚ)) ::
    vertexLoop xscale m_xoff m_pixelsPerVolt offset m_height rest

/-- The inner loop `for(; nsample < count-1; nsample ++)` of the index scan for column `j`
(source lines 121-134), started at `nsample`. The result is the value left in
`m_indexBuffer[j]` (the default `count`, or `nsample` at the `break`) and the value of
`nsample` after the loop. `fuel` bounds the number of iterations; the caller passes
`count - 1 - nsample`, which the loop cannot exceed (`scanColumn_fuel`). -/
def scanColumn (m_traceBuffer : List ℚ) (count : Nat) (j : Nat) : Nat → Nat → Nat × Nat
  | 0, nsample => (count, nsample)
  | fuel + 1, nsample =>
    if nsample < count - 1 then
      if m_traceBuffer.getD ((nsample + 1) * 2) 0 ≥ (j : ℚ) then (nsample, nsample)
      else scanColumn m_traceBuffer count j fuel (nsample + 1)
    else (count, nsample)

/-- The outer loop `for(int j=0; j<m_width; j++)` (source lines 118-135) with `ncols` columns
still to do, the next column being `j`; returns the entries of the columns `j, j+1, ...`. -/
def scanColumns (m_traceBuffer : List ℚ) (count : Nat) : Nat → Nat → Nat → List Nat
  | 0, _, _ => []
  | ncols + 1, j, nsample =>
    let r := scanColumn m_traceBuffer count j (count - 1 - nsample) nsample
    r.1 :: scanColumns m_traceBuffer count ncols (j + 1) r.2

/-- The index scan of `PrepareGeometry` (source lines 117-135): `nsample = 0`, then all
`m_width` columns from column 0. -/
def indexScan (m_traceBuffer : List ℚ) (count m_width : Nat) : List Nat :=
  scanColumns m_traceBuffer count m_width 0 0

/-- `WaveformArea::PrepareGeometry` (source lines 53-163): the returned flag and the state
after the call. `m_xoff` is written before the emptiness test, as in the source. -/
def PrepareGeometry (w : WaveformArea) : Bool × WaveformArea :=
  match w.m_channel.data with
  | .analog data =>
    let m_xoff := (data.m_triggerPhase - (w.m_group.m_xAxisOffset : ℚ)) * w.m_group.m_pixelsPerXUnit
    let count := data.m_samples.length
    if count = 0 then (false, { w with m_xoff := m_xoff })
    else
      let xscale := (data.m_timescale : ℚ) * w.m_group.m_pixelsPerXUnit
      let buf := vertexLoop xscale m_xoff w.m_pixelsPerVolt w.m_channel.offset w.m_height
        data.m_samples
      (true, { w with
        m_xoff := m_xoff
        m_traceBuffer := buf
        m_indexBuffer := indexScan buf count w.m_width
        m_waveformLength := count
        m_geometryDirty := false })
  | _ => (false, w)

/-- Pixel x of sample `i` in a trace buffer: `m_traceBuffer[i*2]`. -/
def sampleX (m_traceBuffer : List ℚ) (i : Nat) : ℚ := m_traceBuffer.getD (i * 2) 0

/-! ## Scenario of the specification: five samples, fifty columns -/

/-- Five samples at offsets 0, 10, 20, 30, 40, each of duration 10, timescale 1, trigger
phase 0. -/
def scenarioCapture : AnalogCapture :=
  { m_timescale := 1
    m_triggerPhase := 0
    m_samples := [⟨0, 10, 0⟩, ⟨10, 10, 0⟩, ⟨20, 10, 0⟩, ⟨30, 10, 0⟩, ⟨40, 10, 0⟩] }

/-- A 50 pixel wide area showing `scenarioCapture` at 1 pixel per unit, x-axis offset 0. -/
def scenarioArea : WaveformArea :=
  { m_channel := { data := .analog scenarioCapture, offset := 0, voltageRange := 1 }
    m_group := { m_pixelsPerXUnit := 1, m_xAxisOffset := 0 }
    m_width := 50
    m_height := 100
    m_padding := 2
    m_plotRight := 50
    m_pixelsPerVolt := 100
    m_xoff := 0
    m_traceBuffer := []
    m_indexBuffer := []
    m_waveformLength := 0
    m_geometryOK := false
    m_geometryDirty := true
    m_firstFrame := false
    isEye := false
    isWaterfall := false }

end WaveformArea

namespace WaveformArea

/-- The naive per-column search the scan is compared with, written from the specification's
words: for column `j`, the least `s` with `s < count - 1` and `x_{s+1} ≥ j`, found by trying
`s = 0, 1, ..., count - 2` in turn, or the sentinel `count` when there is none. -/
def naiveColumnSearch (m_traceBuffer : List ℚ) (count j : Nat) : Nat :=
  ((List.range (count - 1)).find?
    (fun s => decide ((j : ℚ) ≤ sampleX m_traceBuffer (s + 1)))).getD count

/-- What the scan leaves in column `j`, stated on the pixel positions: `e` is the least `s`
with `s < count - 1` and `x_{s+1} ≥ j`, or `e` is the sentinel `count` and there is no such
`s`. -/
def IsColumnEntry (m_traceBuffer : List ℚ) (count j e : Nat) : Prop :=
  (e < count - 1 ∧ (j : ℚ) ≤ sampleX m_traceBuffer (e + 1) ∧
      ∀ s, s < e → sampleX m_traceBuffer (s + 1) < (j : ℚ)) ∨
  (e = count ∧ ∀ s, s < count - 1 → sampleX m_traceBuffer (s + 1) < (j : ℚ))

/-- Sample `i` starts in pixel column `j`: its pixel x lies in `[j, j+1)`. -/
def StartsInColumn (m_traceBuffer : List ℚ) (i j : Nat) : Prop :=
  (j : ℚ) ≤ sampleX m_traceBuffer i ∧ sampleX m_traceBuffer i < (j : ℚ) + 1

instance (m_traceBuffer : List ℚ) (i j : Nat) : Decidable (StartsInColumn m_traceBuffer i j) :=
  inferInstanceAs (Decidable (_ ∧ _))

/-- Six samples at offsets 0..5, timescale 1, trigger phase 0: with half a pixel per unit the
spacing is narrower than one pixel. -/
def denseCapture : AnalogCapture :=
  { m_timescale := 1
    m_triggerPhase := 0
    m_samples := [⟨0, 1, 0⟩, ⟨1, 1, 0⟩, ⟨2, 1, 0⟩, ⟨3, 1, 0⟩, ⟨4, 1, 0⟩, ⟨5, 1, 0⟩] }

/-- A 4 pixel wide area showing `denseCapture` at half a pixel per unit: the samples are at
pixel x 0, 1/2, 1, 3/2, 2, 5/2. -/
def denseArea : WaveformArea :=
  { scenarioArea with
    m_channel := { data := .analog denseCapture, offset := 0, voltageRange := 1 }
    m_group := { m_pixelsPerXUnit := 1 / 2, m_xAxisOffset := 0 }
    m_width := 4
    m_plotRight := 4 }

end WaveformArea

namespace WaveformArea

/-! ## on_render -/

/-- Conversion of a real value to an integer type: truncation toward zero. -/
def truncToInt (q : ℚ) : Int := if 0 ≤ q then ⌊q⌋ else ⌈q⌉

/-- Conversion of a real value to `int64_t`: truncation toward zero when the truncated value
lies in `[-2^63, 2^63)`. Outside that range the language leaves the conversion undefined
(x86-64 yields `INT64_MIN`): `none`. -/
def toInt64 (q : ℚ) : Option Int :=
  if -2 ^ 63 ≤ truncToInt q ∧ truncToInt q < 2 ^ 63 then some (truncToInt q) else none

/-- The sum of two `int64_t` values; `none` when it does not fit 64 bits (signed overflow). -/
def addInt64 (a b : Int) : Option Int :=
  if -2 ^ 63 ≤ a + b ∧ a + b < 2 ^ 63 then some (a + b) else none

/-- `WaveformArea::PixelsToXAxisUnits` (source lines 465-468), result type `int64_t`: the
quotient `pix / m_pixelsPerXUnit` converted to `int64_t`. With a scale of zero the quotient is
an infinity or not a number, which no `int64_t` represents. -/
def PixelsToXAxisUnits (w : WaveformArea) (pix : ℚ) : Option Int :=
  if w.m_group.m_pixelsPerXUnit = 0 then none
  else toInt64 (pix / w.m_group.m_pixelsPerXUnit)

/-- `WaveformArea::XPositionToXAxisUnits` (source lines 460-463), result type `int64_t`. -/
def XPositionToXAxisUnits (w : WaveformArea) (pix : ℚ) : Option Int :=
  (PixelsToXAxisUnits w pix).bind fun t => addInt64 w.m_group.m_xAxisOffset t

/-- `WaveformArea::XAxisUnitsToPixels` (source lines 470-473). -/
def XAxisUnitsToPixels (w : WaveformArea) (t : Int) : ℚ :=
  (t : ℚ) * w.m_group.m_pixelsPerXUnit

/-- `WaveformArea::XAxisUnitsToXPosition` (source lines 475-478). -/
def XAxisUnitsToXPosition (w : WaveformArea) (t : Int) : ℚ :=
  XAxisUnitsToPixels w (t - w.m_group.m_xAxisOffset)

/-- `WaveformArea::PixelsToVolts` (source lines 480-483). -/
def PixelsToVolts (w : WaveformArea) (pix : ℚ) : ℚ := pix / w.m_pixelsPerVolt

/-- `WaveformArea::VoltsToPixels` (source lines 485-488). -/
def VoltsToPixels (w : WaveformArea) (volt : ℚ) : ℚ := volt * w.m_pixelsPerVolt

/-- `WaveformArea::VoltsToYPosition` (source lines 490-493); `m_height/2` is an integer
division. -/
def VoltsToYPosition (w : WaveformArea) (volt : ℚ) : ℚ :=
  ((Int.tdiv w.m_height 2 : Int) : ℚ) - VoltsToPixels w (volt + w.m_channel.offset)

/-- `WaveformArea::YPositionToVolts` (source lines 501-504); `m_height/2` is an integer
division. -/
def YPositionToVolts (w : WaveformArea) (y : ℚ) : ℚ :=
  PixelsToVolts w (-1 * (y - ((Int.tdiv w.m_height 2 : Int) : ℚ))) - w.m_channel.offset

/-- The scenario area zoomed in to 2 pixels per x-axis unit. -/
def zoomedArea : WaveformArea :=
  { scenarioArea with m_group := { m_pixelsPerXUnit := 2, m_xAxisOffset := 0 } }

/-- The scenario area zoomed out to `2^63` x-axis units per pixel. -/
def wideSpanArea : WaveformArea :=
  { scenarioArea with m_group := { m_pixelsPerXUnit := 1 / 2 ^ 63, m_xAxisOffset := 0 } }

end WaveformArea

namespace WaveformArea

/-! ## RenderTrace -/

/-- `WaveformArea::RenderTrace` (source lines 357-367): the number `numGroups` of workgroups
handed to `DispatchCompute`. `%` and `/` truncate toward zero, `|=` is the bitwise or. -/
def RenderTrace_numGroups (w : WaveformArea) : Int :=
  let localSize : Int := 2
  let numCols : Int := w.m_plotRight
  let numCols : Int :=
    if 0 ≠ Int.tmod numCols localSize then Int.lor numCols (localSize - 1) + 1 else numCols
  Int.tdiv numCols localSize

/-! ## Decibel axis and the edges of the grid -/

/-- `WaveformArea::DbToYPosition` (source lines 495-499). -/
def DbToYPosition (w : WaveformArea) (db : ℚ) : ℚ :=
  let plotheight : ℚ := ((w.m_height - 2 * w.m_padding : Int) : ℚ)
  (w.m_padding : ℚ) - (db / 70 * plotheight)

/-- The local `ytop` of `RenderGrid` (source line 526): `m_height - m_padding`. -/
def RenderGrid_ytop (w : WaveformArea) : ℚ := ((w.m_height - w.m_padding : Int) : ℚ)

/-- The local `ybot` of `RenderGrid` (source line 527): `m_padding`. -/
def RenderGrid_ybot (w : WaveformArea) : ℚ := (w.m_padding : ℚ)

/-! ## Compositing the overlay -/

/-- The scenario area showing a capture of two samples of a quarter volt. -/
def quarterVoltArea : WaveformArea :=
  { scenarioArea with
    m_channel :=
      { data := .analog
          { m_timescale := 1, m_triggerPhase := 0,
            m_samples := [⟨0, 10, 1 / 4⟩, ⟨10, 10, 1 / 4⟩] }
        offset := 0
        voltageRange := 1 } }

end WaveformArea

namespace WaveformArea

/-! ## RenderDecodeOverlays: overlay slots -/

namespace RenderDecodeOverlays

/-- The local `height` (source line 744). -/
def height : Int := 20

/-- The local `spacing` (source line 745). -/
def spacing : Int := 30

/-- The local `midline = spacing / 2` (source line 746). -/
def midline : Int := Int.tdiv spacing 2

/-- The local `max_overlays` (source line 749). -/
def max_overlays : Nat := 10

end RenderDecodeOverlays

open RenderDecodeOverlays in
/-- The first loop of `RenderDecodeOverlays` (source lines 751-760) over the overlays still to
visit: an overlay with an entry `pos` marks `overlayPositionsUsed[(pos - midline) / spacing]`
when `pos >= 0` and the index is below `max_overlays`. Overlays are identified by numbers,
`m_overlayPositions` is a finite map given as a function to `Option`. -/
def markUsed (m_overlayPositions : Nat → Option Int) : List Nat → List Bool → List Bool
  | [], overlayPositionsUsed => overlayPositionsUsed
  | o :: rest, overlayPositionsUsed =>
    match m_overlayPositions o with
    | none => markUsed m_overlayPositions rest overlayPositionsUsed
    | some pos =>
      let index := Int.tdiv (pos - midline) spacing
      if pos ≥ 0 ∧ index < (max_overlays : Int) then
        markUsed m_overlayPositions rest (overlayPositionsUsed.set index.toNat true)
      else markUsed m_overlayPositions rest overlayPositionsUsed

/-- The assignment `m_overlayPositions[o] = pos`. -/
def setPosition (m_overlayPositions : Nat → Option Int) (o : Nat) (pos : Int) :
    Nat → Option Int :=
  fun k => if k = o then some pos else m_overlayPositions k

open RenderDecodeOverlays in
/-- The second loop of `RenderDecodeOverlays` (source lines 763-777) over the overlays still to
visit: an overlay without an entry takes the first `i` in `0 .. max_overlays-1` with
`overlayPositionsUsed[i]` false, marks it and is stored at `midline + spacing*i`; when there
is no such `i` the inner loop ends without a store. -/
def assignLoop : List Nat → (Nat → Option Int) × List Bool → (Nat → Option Int) × List Bool
  | [], st => st
  | o :: rest, (m_overlayPositions, overlayPositionsUsed) =>
    match m_overlayPositions o with
    | some _ => assignLoop rest (m_overlayPositions, overlayPositionsUsed)
    | none =>
      match (List.range max_overlays).find? (fun i => !overlayPositionsUsed.getD i false) with
      | some i =>
        assignLoop rest
          (setPosition m_overlayPositions o (midline + spacing * (i : Int)),
            overlayPositionsUsed.set i true)
      | none => assignLoop rest (m_overlayPositions, overlayPositionsUsed)

/-- What the third loop of `RenderDecodeOverlays` does to the map (source line 784):
`m_overlayPositions[o]` on a map without an entry for `o` inserts the value 0. -/
def readLoop : List Nat → (Nat → Option Int) → (Nat → Option Int)
  | [], m_overlayPositions => m_overlayPositions
  | o :: rest, m_overlayPositions =>
    match m_overlayPositions o with
    | some _ => readLoop rest m_overlayPositions
    | none => readLoop rest (setPosition m_overlayPositions o 0)

open RenderDecodeOverlays in
/-- The map after the two slot loops of `RenderDecodeOverlays` (source lines 748-777). -/
def assignPositions (m_overlays : List Nat) (m_overlayPositions : Nat → Option Int) :
    Nat → Option Int :=
  (assignLoop m_overlays
    (m_overlayPositions,
      markUsed m_overlayPositions m_overlays (List.replicate max_overlays false))).1

/-- `WaveformArea::RenderDecodeOverlays` (source lines 741-883), its effect on
`m_overlayPositions`: the two slot loops, then the reads of the drawing loop. -/
def RenderDecodeOverlays (m_overlays : List Nat) (m_overlayPositions : Nat → Option Int) :
    Nat → Option Int :=
  readLoop m_overlays (assignPositions m_overlays m_overlayPositions)

open RenderDecodeOverlays in
/-- Slot `i` is used by a current overlay: some overlay of `m_overlays` has an entry `pos`
with `pos >= 0` and `(pos - midline) / spacing = i`, the test of the first loop. -/
def slotUsedBy (m_overlayPositions : Nat → Option Int) (m_overlays : List Nat) (i : Nat) :
    Bool :=
  m_overlays.any fun o =>
    match m_overlayPositions o with
    | some pos => decide (0 ≤ pos) && decide (Int.tdiv (pos - midline) spacing = (i : Int))
    | none => false

/-- The flags agree with the map: flag `i` is set exactly when slot `i` is used by a current
overlay. -/
def FlagsAgree (m_overlays : List Nat) (st : (Nat → Option Int) × List Bool) : Prop :=
  st.2.length = RenderDecodeOverlays.max_overlays ∧
  ∀ i, i < RenderDecodeOverlays.max_overlays → st.2.getD i false = slotUsedBy st.1 m_overlays i

/-- The map when the second loop reaches the overlay that follows `pre` in `m_overlays`. -/
def positionsWhenReached (m_overlays pre : List Nat) (m_overlayPositions : Nat → Option Int) :
    Nat → Option Int :=
  (assignLoop pre
    (m_overlayPositions,
      markUsed m_overlayPositions m_overlays
        (List.replicate RenderDecodeOverlays.max_overlays false))).1

/-- The map over a run of frames, `m_overlays` being given for each frame. -/
def renderFrames : List (List Nat) → (Nat → Option Int) → (Nat → Option Int)
  | [], m_overlayPositions => m_overlayPositions
  | m_overlays :: rest, m_overlayPositions =>
    renderFrames rest (RenderDecodeOverlays m_overlays m_overlayPositions)

/-- The empty map. -/
def noPositions : Nat → Option Int := fun _ => none

end WaveformArea

namespace WaveformArea

/-! ## RenderDecodeOverlays: the rows -/

/-- Modelled from the spec: the sample type of a decoded capture is declared in a header that
is not among the sources. Section 3: a start offset, a duration and a value (boolean for
digital); `level` is `(*ddat)[i]`. -/
structure DecodeSample where
  m_offset : Int
  m_duration : Int
  level : Bool
  deriving DecidableEq, Repr

/-- Modelled from the spec: the capture of a decoded channel (`o->GetData()`), of which the
rows read `m_timescale`, `m_triggerPhase`, `GetDepth()`, `GetSampleStart(i)` and
`GetSampleLen(i)`. -/
structure DecodeCapture where
  m_timescale : Int
  m_triggerPhase : ℚ
  m_samples : List DecodeSample
  deriving DecidableEq, Repr

/-- The local `start` of both row loops (source lines 811 and 844). -/
def sampleStart (data : DecodeCapture) (s : DecodeSample) : ℚ :=
  ((s.m_offset * data.m_timescale : Int) : ℚ) + data.m_triggerPhase

/-- The local `end` of both row loops (source lines 812 and 845). -/
def sampleEnd (data : DecodeCapture) (s : DecodeSample) : ℚ :=
  sampleStart data s + ((s.m_duration * data.m_timescale : Int) : ℚ)

/-- The local `xs` (source lines 814 and 847): `XAxisUnitsToXPosition(start)`, the argument
being converted to `int64_t`. -/
def sampleXs (w : WaveformArea) (data : DecodeCapture) (s : DecodeSample) : ℚ :=
  XAxisUnitsToXPosition w (truncToInt (sampleStart data s))

/-- The local `xe` (source lines 815 and 848): `XAxisUnitsToXPosition(end)`. -/
def sampleXe (w : WaveformArea) (data : DecodeCapture) (s : DecodeSample) : ℚ :=
  XAxisUnitsToXPosition w (truncToInt (sampleEnd data s))

/-- The test `(xe < textright) || (xs > m_plotRight)` before `continue` (source lines 817
and 850). -/
def culled (w : WaveformArea) (textright : Int) (xs xe : ℚ) : Bool :=
  decide (xe < (textright : ℚ)) || decide (xs > (w.m_plotRight : ℚ))

/-- The text row (source lines 809-830) from sample index `i` on: the calls of
`RenderComplexSignal`, each recorded with the sample index and the extent `xs`, `xe`. -/
def textLoop (w : WaveformArea) (textright : Int) (data : DecodeCapture) :
    List DecodeSample → Nat → List (Nat × ℚ × ℚ)
  | [], _ => []
  | s :: rest, i =>
    if culled w textright (sampleXs w data s) (sampleXe w data s) then
      textLoop w textright data rest (i + 1)
    else (i, sampleXs w data s, sampleXe w data s) :: textLoop w textright data rest (i + 1)

/-- The path commands the digital row sends to Cairo. -/
inductive PathCmd where
  | move_to (x y : ℚ)
  | line_to (x y : ℚ)
  deriving DecidableEq, Repr

/-- The digital row (source lines 842-877) over the samples still to visit, with the current
values of `first` and `last_end`; returns the path commands in order. -/
def digitalLoop (w : WaveformArea) (textright : Int) (ytop ybot : ℚ) (data : DecodeCapture) :
    List DecodeSample → Bool → ℚ → List PathCmd
  | [], _, _ => []
  | s :: rest, first, last_end =>
    let xs := sampleXs w data s
    let xe := sampleXe w data s
    if culled w textright xs xe then digitalLoop w textright ytop ybot data rest first last_end
    else
      let xe := if xe > (w.m_plotRight : ℚ) then (w.m_plotRight : ℚ) else xe
      let y := if s.level then ytop else ybot
      let first := if xs - last_end > 2 then true else first
      (if first then PathCmd.move_to xs y else PathCmd.line_to xs y) ::
        PathCmd.line_to xe y :: digitalLoop w textright ytop ybot data rest false xe

/-- The digital row as `RenderDecodeOverlays` starts it (source lines 837-838):
`first = true`, `last_end = -100`. -/
def digitalRow (w : WaveformArea) (textright : Int) (ytop ybot : ℚ) (data : DecodeCapture) :
    List PathCmd :=
  digitalLoop w textright ytop ybot data data.m_samples true (-100)

/-- A sample the digital row draws: its start `xs`, its end `xe` after the clamp to
`m_plotRight`, and the `y` of its level. -/
structure DrawnSample where
  xs : ℚ
  xe : ℚ
  y : ℚ
  deriving DecidableEq, Repr

/-- The samples the digital row draws, in order: those that pass the test of source line 850,
with the clamp and the level of source lines 854-859. -/
def drawnSamples (w : WaveformArea) (textright : Int) (ytop ybot : ℚ) (data : DecodeCapture) :
    List DecodeSample → List DrawnSample
  | [] => []
  | s :: rest =>
    if culled w textright (sampleXs w data s) (sampleXe w data s) then
      drawnSamples w textright ytop ybot data rest
    else
      { xs := sampleXs w data s
        xe := if sampleXe w data s > (w.m_plotRight : ℚ) then (w.m_plotRight : ℚ)
          else sampleXe w data s
        y := if s.level then ytop else ybot } ::
      drawnSamples w textright ytop ybot data rest

/-- The pen of the digital row over drawn samples (source lines 861-876), with the current
values of `first` and `last_end`. -/
def penLoop : List DrawnSample → Bool → ℚ → List PathCmd
  | [], _, _ => []
  | a :: rest, first, last_end =>
    (if (if a.xs - last_end > 2 then true else first) then PathCmd.move_to a.xs a.y
      else PathCmd.line_to a.xs a.y) ::
      PathCmd.line_to a.xe a.y :: penLoop rest false a.xe

/-- A decoded capture of four samples at offsets 0, 10, 30, 41 with durations 10, 10, 10, 100,
timescale 1, trigger phase 0. -/
def decodeCapture : DecodeCapture :=
  { m_timescale := 1
    m_triggerPhase := 0
    m_samples := [⟨0, 10, true⟩, ⟨10, 10, false⟩, ⟨30, 10, true⟩, ⟨41, 100, false⟩] }

end WaveformArea

namespace WaveformArea

/-! ## RenderDecodeOverlays: the index of a stored position in 32-bit arithmetic -/

/-- A value brought into the range of a 32-bit two's complement `int`. -/
def wrapInt32 (x : Int) : Int := (x + 2 ^ 31) % 2 ^ 32 - 2 ^ 31

/-- The local `index = (pos - midline) / spacing` of `RenderDecodeOverlays` (source line 757)
computed in 32-bit `int` arithmetic: the subtraction wraps, the division truncates. -/
def slotIndex32 (pos : Int) : Int :=
  Int.tdiv (wrapInt32 (pos - RenderDecodeOverlays.midline)) RenderDecodeOverlays.spacing

/-! ## RenderGrid -/

/-- The assignment `gridmap[key] = y` on the `std::map<float, float>` of `RenderGrid`, kept as
a list in ascending order of the keys. -/
def gridmapInsert (key y : ℚ) : List (ℚ × ℚ) → List (ℚ × ℚ)
  | [] => [(key, y)]
  | (k, v) :: rest =>
    if key < k then (key, y) :: (k, v) :: rest
    else if key = k then (key, y) :: rest
    else (k, v) :: gridmapInsert key y rest

/-- The grid map of a spectrum (source lines 535-539): `db = 0, -10, ..., -60`, each stored
with `DbToYPosition(db)`. -/
def fftGridmap (w : WaveformArea) : List (ℚ × ℚ) :=
  ([0, -10, -20, -30, -40, -50, -60] : List ℚ).foldl
    (fun gridmap db => gridmapInsert db (DbToYPosition w db) gridmap) []

/-- Rounding of a real to the nearest integer, a tie to the even neighbour. -/
def roundHalfEven (m : ℚ) : Int :=
  let f : Int := ⌊m⌋
  let r : ℚ := m - f
  if r < 1 / 2 then f
  else if 1 / 2 < r then f + 1
  else if f % 2 = 0 then f else f + 1

/-- Search upward from `e` for the first exponent with `q < 2^(e+1)`, at most `fuel` steps. -/
def f32ExponentFrom : Nat → Int → ℚ → Int
  | 0, e, _ => e
  | fuel + 1, e, q => if q < 2 ^ (e + 1) then e else f32ExponentFrom fuel (e + 1) q

/-- The exponent of the single-precision binade of `q`: the `e` in `[-126, 127]` with
`2^e ≤ |q| < 2^(e+1)`, or `-126` for the smaller magnitudes (subnormal values and zero). -/
def f32Exponent (q : ℚ) : Int := f32ExponentFrom 253 (-126) |q|

/-- The single-precision (IEEE 754 binary32) value nearest to `q`, a tie to the one with even
significand: `q` is rounded to a whole multiple of `2^(e-23)`, the spacing of the 24-bit
significands in the binade of `q`. Infinity is not modelled: the result is meaningful for
magnitudes below `2^128` only. -/
def roundF32 (q : ℚ) : ℚ :=
  let ulp : ℚ := 2 ^ (f32Exponent q - 23)
  (roundHalfEven (q / ulp) : ℚ) * ulp

/-- The test before `break` in the linear grid loop (source line 567): the `-dv` line is beyond
`ytop` and the `+dv` line is beyond `ybot`. -/
def gridLoopExit (w : WaveformArea) (dv : ℚ) : Prop :=
  VoltsToYPosition w (-dv) > RenderGrid_ytop w ∧ VoltsToYPosition w dv < RenderGrid_ybot w

instance (w : WaveformArea) (dv : ℚ) : Decidable (gridLoopExit w dv) :=
  inferInstanceAs (Decidable (_ ∧ _))

/-- The linear grid loop `for(float dv=0; ; dv += selected_step)` (source lines 551-569) from
the current `dv` and grid map; `theight` is the label height measured by the text layout
engine, `selected_step` the result of `AnalogRenderer::PickStepSize`, both from outside the
sources. `dv` is a single-precision `float`, so the sum `dv + selected_step` is rounded
(`roundF32`). Returns the grid map and the `dv` at the `break`, or `none` when `fuel`
iterations did not reach the `break`. -/
def linearGridLoop (w : WaveformArea) (theight : Int) (selected_step : ℚ) :
    Nat → ℚ → List (ℚ × ℚ) → Option (List (ℚ × ℚ) × ℚ)
  | 0, _, _ => none
  | fuel + 1, dv, gridmap =>
    let yt := VoltsToYPosition w dv
    let yb := VoltsToYPosition w (-dv)
    let gridmap :=
      if dv ≠ 0 then
        let g1 :=
          if yb ≤ RenderGrid_ytop w - ((Int.tdiv theight 2 : Int) : ℚ) then
            gridmapInsert (-dv) yb gridmap
          else gridmap
        if yt ≥ RenderGrid_ybot w + ((Int.tdiv theight 2 : Int) : ℚ) then gridmapInsert dv yt g1
        else g1
      else gridmapInsert dv yt gridmap
    if gridLoopExit w dv then some (gridmap, dv)
    else linearGridLoop w theight selected_step fuel (roundF32 (dv + selected_step)) gridmap

/-- A gridline stroked by `RenderGrid`: its `y` and the alpha of the source colour. -/
structure GridLine where
  y : ℚ
  alpha : ℚ
  deriving DecidableEq, Repr

/-- `WaveformArea::RenderGrid` (source lines 506-587): the state after the call and the
gridlines stroked, in order. `isFFT` is the result of `IsFFT()`, `twidth` and `theight` the
measured label size, `selected_step` the result of `PickStepSize`, all from outside the
sources. The solid centre line is stroked in the branch of the linear axis only (source lines
571-575); the dimmed loop skips the key 0 (source lines 579-587). -/
def RenderGrid (isFFT : Bool) (twidth theight : Int) (selected_step : ℚ) (fuel : Nat)
    (w : WaveformArea) : Option (WaveformArea × List GridLine) :=
  let w1 := { w with m_plotRight := (w.m_width : Int) - twidth }
  if w1.isWaterfall then some (w1, [])
  else
    let drawn : Option (List (ℚ × ℚ) × List GridLine) :=
      if isFFT then some (fftGridmap w1, [])
      else
        (linearGridLoop w1 theight selected_step fuel 0 []).map
          fun r => (r.1, [{ y := VoltsToYPosition w1 0, alpha := 1 }])
    drawn.map fun d =>
      (w1, d.2 ++ (d.1.filter fun e => decide (e.1 ≠ 0)).map
        fun e => { y := e.2, alpha := 1 / 4 })

/-- The scenario area with height 74 and padding 2, so that the plot is 70 pixels high. -/
def spectrumArea : WaveformArea := { scenarioArea with m_height := 74 }

/-- The scenario area with a channel offset of five million volts. -/
def farOffsetArea : WaveformArea :=
  { scenarioArea with m_channel := { scenarioArea.m_channel with offset := 5000000 } }

end WaveformArea

namespace WaveformArea

/-- No two current overlays share a stored position. -/
def DistinctPositions (m_overlays : List Nat) (m_overlayPositions : Nat → Option Int) : Prop :=
  ∀ (o1 o2 : Nat) (pos : Int), o1 ∈ m_overlays → o2 ∈ m_overlays → o1 ≠ o2 →
    m_overlayPositions o1 = some pos → m_overlayPositions o2 ≠ some pos

end WaveformArea

/-! History window: a shallow embedding of `src/glscopeclient/HistoryWindow.cpp`. -/

namespace HistoryWindow

/-- Modelled from the spec: `FS_PER_SECOND` is a constant defined outside the sources; the
number of femtoseconds in a second, 10^15. -/
def FS_PER_SECOND : Int := 10 ^ 15

/-- `HistoryWindow::FormatTimestamp` (source lines 143-168): the base time after the shift of
whole seconds (source lines 146-150) and the number printed after the decimal point by
`"%010zu"`, `static_cast<size_t>(offset / 100000)` (source line 165). The clock text made by
`strftime` from the base time is not modelled. -/
def FormatTimestamp (base offset : Int) : Int × Nat :=
  let shifted : Int × Int :=
    if offset > FS_PER_SECOND then
      (base + Int.tdiv offset FS_PER_SECOND, Int.tmod offset FS_PER_SECOND)
    else (base, offset)
  (shifted.1, (Int.tdiv shifted.2 100000 % 2 ^ 64).toNat)

/-- The output of `"%010zu"`: the decimal digits, padded on the left with zeros to ten
characters; a longer number is printed in full. -/
def printZeroPadded10 (n : Nat) : String :=
  String.mk (List.replicate (10 - (Nat.repr n).length) '0') ++ Nat.repr n

/-- The columns of a row of the history tree (`HistoryColumns`, source lines 45-56). The
capture key is a time point (seconds, femtoseconds); the waveform history and the marker are
identified by numbers. -/
structure HistoryRow where
  m_timestamp : String
  m_datestamp : String
  m_capturekey : Int × Int
  m_history : Nat
  m_pinned : Bool
  m_label : String
  m_offset : Int
  m_marker : Option Nat
  m_pinvisible : Bool
  deriving DecidableEq, Repr

/-- The scan for the oldest un-pinned row of `ClearOldHistoryItems` (source lines 297-307):
pinned rows are skipped, the first un-pinned row is erased (`DeleteHistoryRow`); `none` when
every row is pinned (`deletedSomething` stays false). -/
def deleteOldestUnpinned : List HistoryRow → Option (List HistoryRow)
  | [] => none
  | row :: rest =>
    if row.m_pinned then (deleteOldestUnpinned rest).map (fun r => row :: r)
    else some rest

/-- The loop `while(children.size() > nmax)` of `ClearOldHistoryItems` (source lines 292-312);
`none` when `fuel` iterations did not end the loop. -/
def clearLoop (nmax : Nat) : Nat → List HistoryRow → Option (List HistoryRow)
  | 0, children => if children.length > nmax then none else some children
  | fuel + 1, children =>
    if children.length > nmax then
      match deleteOldestUnpinned children with
      | some remaining => clearLoop nmax fuel remaining
      | none => some children
    else some children

/-- The value of `nmax` after source lines 283-290: the `int` result of `atoi` converted to
`size_t` (a negative value wraps modulo 2^64), then set to 1 when it is below 1. -/
def clampedMax (parsed : Int) : Nat :=
  if (parsed % 2 ^ 64).toNat < 1 then 1 else (parsed % 2 ^ 64).toNat

/-- `HistoryWindow::ClearOldHistoryItems` (source lines 279-313): `parsed` is the result of
`atoi` on the text of the box, `children` the rows of the model, oldest first. Returns the
rows left; each iteration of the loop erases a row or leaves the loop, so `length + 1`
iterations are enough (`clearLoop_some`). -/
def ClearOldHistoryItems (parsed : Int) (children : List HistoryRow) :
    Option (List HistoryRow) :=
  clearLoop (clampedMax parsed) (children.length + 1) children

/-- The eviction as the claim words it: the `k` oldest un-pinned rows are removed, the other
rows stay in their order. -/
def removeOldestUnpinned : Nat → List HistoryRow → List HistoryRow
  | 0, rows => rows
  | _ + 1, [] => []
  | k + 1, row :: rest =>
    if row.m_pinned then row :: removeOldestUnpinned (k + 1) rest
    else removeOldestUnpinned k rest

/-- The number of un-pinned rows. -/
def countUnpinned (rows : List HistoryRow) : Nat :=
  (rows.filter fun row => !row.m_pinned).length

/-- `HistoryWindow::OnRowChanged` (source lines 520-547) on the row: `pathSize` is
`path.size()`. A marker row (`pathSize > 1`) keeps its columns (the change goes to the marker
object); a top-level row with a label that is not pinned gets pinned. -/
def OnRowChanged (pathSize : Nat) (row : HistoryRow) : HistoryRow :=
  if pathSize > 1 then row
  else if row.m_label ≠ "" ∧ row.m_pinned ≠ true then { row with m_pinned := true }
  else row

/-- The record `asample_t` of the sparse format (source lines 849-859). -/
structure asample_t where
  off : Int
  dur : Int
  voltage : ℚ
  deriving DecidableEq, Repr

/-- Modelled from the spec: the sparse analog waveform, declared outside the sources, of which
the save reads `m_offsets`, `m_durations` and `m_samples`. -/
structure AnalogWaveform where
  m_offsets : List Int
  m_durations : List Int
  m_samples : List ℚ
  deriving DecidableEq, Repr

/-- The block size `samples_per_block` (source line 844). -/
def samples_per_block : Nat := 10000

/-- The copy loop of `DoSaveWaveformDataForSparseStream` (source lines 862-865) from index `i`:
`samples.push_back(asample_t(m_offsets[i], m_durations[i], m_samples[i]))` for `i < len`,
`count` indices being left. -/
def copySamples (wave : AnalogWaveform) : Nat → Nat → List asample_t
  | 0, _ => []
  | count + 1, i =>
    { off := wave.m_offsets.getD i 0
      dur := wave.m_durations.getD i 0
      voltage := wave.m_samples.getD i 0 } :: copySamples wave count (i + 1)

/-- The write loop `for(size_t i=0; i<len; i+= samples_per_block)` (source lines 868-875) from
index `i`: each iteration writes the block `samples[i .. i + blocklen)` with
`blocklen = min(len-i, samples_per_block)`. `none` when `fuel` iterations did not end the
loop. -/
def writeLoop (samples : List asample_t) : Nat → Nat → Option (List (List asample_t))
  | 0, i => if i < samples.length then none else some []
  | fuel + 1, i =>
    if i < samples.length then
      let blocklen := min (samples.length - i) samples_per_block
      (writeLoop samples fuel (i + samples_per_block)).map
        (fun blocks => ((samples.drop i).take blocklen) :: blocks)
    else some []

/-- `HistoryWindow::DoSaveWaveformDataForSparseStream` for an analog waveform (source lines
838-876): the blocks handed to `fwrite`, in order. Each iteration advances `i` by
`samples_per_block`, so `len` iterations are enough (`writeLoop_some`). -/
def DoSaveWaveformDataForSparseStream (wave : AnalogWaveform) : Option (List (List asample_t)) :=
  let len := wave.m_offsets.length
  let samples := copySamples wave len 0
  writeLoop samples len 0

end HistoryWindow

namespace HistoryWindow

/-- Two un-pinned rows without label, the older first. -/
def twoRows : List HistoryRow :=
  [{ m_timestamp := "10:00:00.0000000000", m_datestamp := "2020-01-01", m_capturekey := (100, 0),
     m_history := 1, m_pinned := false, m_label := "", m_offset := 0, m_marker := none,
     m_pinvisible := true },
   { m_timestamp := "10:00:01.0000000000", m_datestamp := "2020-01-01", m_capturekey := (101, 0),
     m_history := 2, m_pinned := false, m_label := "", m_offset := 0, m_marker := none,
     m_pinvisible := true }]

/-- Four rows, oldest first: un-pinned, pinned with a label, un-pinned, un-pinned. -/
def fourRows : List HistoryRow :=
  [{ m_timestamp := "10:00:00.0000000000", m_datestamp := "2020-01-01", m_capturekey := (100, 0),
     m_history := 1, m_pinned := false, m_label := "", m_offset := 0, m_marker := none,
     m_pinvisible := true },
   { m_timestamp := "10:00:01.0000000000", m_datestamp := "2020-01-01", m_capturekey := (101, 0),
     m_history := 2, m_pinned := true, m_label := "glitch", m_offset := 0, m_marker := none,
     m_pinvisible := true },
   { m_timestamp := "10:00:02.0000000000", m_datestamp := "2020-01-01", m_capturekey := (102, 0),
     m_history := 3, m_pinned := false, m_label := "", m_offset := 0, m_marker := none,
     m_pinvisible := true },
   { m_timestamp := "10:00:03.0000000000", m_datestamp := "2020-01-01", m_capturekey := (103, 0),
     m_history := 4, m_pinned := false, m_label := "", m_offset := 0, m_marker := none,
     m_pinvisible := true }]

end HistoryWindow

/-! Lemmas and theorems -/

namespace WaveformArea

/-! ## The index scan: lemmas -/

theorem scanColumn_spec (buf : List ℚ) (count j : Nat) :
    ∀ fuel nsample, count - 1 - nsample ≤ fuel →
      nsample ≤ (scanColumn buf count j fuel nsample).2 ∧
      (∀ s, nsample ≤ s → s < (scanColumn buf count j fuel nsample).2 →
        sampleX buf (s + 1) < (j : ℚ)) ∧
      (((scanColumn buf count j fuel nsample).1 = (scanColumn buf count j fuel nsample).2 ∧
          (scanColumn buf count j fuel nsample).2 < count - 1 ∧
          (j : ℚ) ≤ sampleX buf ((scanColumn buf count j fuel nsample).2 + 1)) ∨
       ((scanColumn buf count j fuel nsample).1 = count ∧
          ¬ (scanColumn buf count j fuel nsample).2 < count - 1)) := by
  intro fuel
  induction fuel with
  | zero =>
    intro nsample h
    have hn : ¬ nsample < count - 1 := by omega
    have e : scanColumn buf count j 0 nsample = (count, nsample) := rfl
    rw [e]
    refine ⟨le_refl _, ?_, Or.inr ⟨rfl, hn⟩⟩
    intro s h1 h2
    omega
  | succ fuel ih =>
    intro nsample h
    by_cases hlt : nsample < count - 1
    · by_cases hend : buf.getD ((nsample + 1) * 2) 0 ≥ (j : ℚ)
      · have e : scanColumn buf count j (fuel + 1) nsample = (nsample, nsample) := by
          simp only [scanColumn, hlt, hend, if_true]
        rw [e]
        refine ⟨le_refl _, ?_, Or.inl ⟨rfl, hlt, hend⟩⟩
        intro s h1 h2
        omega
      · have e : scanColumn buf count j (fuel + 1) nsample =
            scanColumn buf count j fuel (nsample + 1) := by
          simp only [scanColumn, hlt, hend, if_true, if_false]
        rw [e]
        obtain ⟨h1, h2, h3⟩ := ih (nsample + 1) (by omega)
        refine ⟨by omega, ?_, h3⟩
        intro s hs1 hs2
        rcases Nat.eq_or_lt_of_le hs1 with heq | hgt
        · subst heq
          exact lt_of_not_ge hend
        · exact h2 s hgt hs2
    · have e : scanColumn buf count j (fuel + 1) nsample = (count, nsample) := by
        simp only [scanColumn, hlt, if_false]
      rw [e]
      refine ⟨le_refl _, ?_, Or.inr ⟨rfl, hlt⟩⟩
      intro s h1 h2
      omega

/-- The fuel handed to `scanColumn` by `scanColumns` is enough: any larger amount gives the
same result, so the loop is never cut short. -/
theorem scanColumn_fuel (buf : List ℚ) (count j : Nat) :
    ∀ fuel nsample, count - 1 - nsample ≤ fuel →
      scanColumn buf count j fuel nsample =
        scanColumn buf count j (count - 1 - nsample) nsample := by
  intro fuel
  induction fuel with
  | zero =>
    intro nsample h
    have h0 : count - 1 - nsample = 0 := by omega
    rw [h0]
  | succ fuel ih =>
    intro nsample h
    by_cases hlt : nsample < count - 1
    · obtain ⟨k, hk⟩ : ∃ k, count - 1 - nsample = k + 1 := ⟨count - 1 - nsample - 1, by omega⟩
      rw [hk]
      by_cases hend : buf.getD ((nsample + 1) * 2) 0 ≥ (j : ℚ)
      · simp only [scanColumn, hlt, hend, if_true]
      · simp only [scanColumn, hlt, hend, if_true, if_false]
        rw [ih (nsample + 1) (by omega)]
        have hk2 : count - 1 - (nsample + 1) = k := by omega
        rw [hk2]
    · have h0 : count - 1 - nsample = 0 := by omega
      rw [h0]
      simp only [scanColumn, hlt, if_false]

theorem scanColumns_length (buf : List ℚ) (count : Nat) :
    ∀ ncols j nsample, (scanColumns buf count ncols j nsample).length = ncols := by
  intro ncols
  induction ncols with
  | zero => intro j nsample; rfl
  | succ n ih => intro j nsample; simp [scanColumns, ih]

/-- Invariant of the outer loop: every sample the cursor has passed starts left of the
current column. With it, each column receives the entry described by `IsColumnEntry`. -/
theorem scanColumns_entry (buf : List ℚ) (count : Nat) :
    ∀ (ncols j nsample : Nat),
      (∀ s, s < nsample → sampleX buf (s + 1) < (j : ℚ)) →
      ∀ k, k < ncols →
        ∃ e, (scanColumns buf count ncols j nsample)[k]? = some e ∧
          IsColumnEntry buf count (j + k) e := by
  intro ncols
  induction ncols with
  | zero => intro j nsample _ k hk; omega
  | succ n ih =>
    intro j nsample hinv k hk
    obtain ⟨h1, h2, h3⟩ := scanColumn_spec buf count j (count - 1 - nsample) nsample (le_refl _)
    have hpassed : ∀ s, s < (scanColumn buf count j (count - 1 - nsample) nsample).2 →
        sampleX buf (s + 1) < (j : ℚ) := by
      intro s hs
      by_cases hsn : s < nsample
      · exact hinv s hsn
      · exact h2 s (by omega) hs
    cases k with
    | zero =>
      refine ⟨(scanColumn buf count j (count - 1 - nsample) nsample).1, by simp [scanColumns], ?_⟩
      rcases h3 with ⟨ha, hb, hc⟩ | ⟨ha, hb⟩
      · left
        rw [ha]
        exact ⟨hb, by simpa using hc, fun s hs => by simpa using hpassed s hs⟩
      · right
        refine ⟨ha, fun s hs => ?_⟩
        simpa using hpassed s (by omega)
    | succ k =>
      have hinv2 : ∀ s, s < (scanColumn buf count j (count - 1 - nsample) nsample).2 →
          sampleX buf (s + 1) < ((j + 1 : Nat) : ℚ) := by
        intro s hs
        have := hpassed s hs
        push_cast
        linarith
      obtain ⟨e, he1, he2⟩ := ih (j + 1) _ hinv2 k (by omega)
      refine ⟨e, by simpa [scanColumns] using he1, ?_⟩
      have hjk : j + 1 + k = j + (k + 1) := by omega
      rw [← hjk]
      exact he2

theorem IsColumnEntry_unique (buf : List ℚ) (count j e1 e2 : Nat)
    (h1 : IsColumnEntry buf count j e1) (h2 : IsColumnEntry buf count j e2) : e1 = e2 := by
  rcases h1 with ⟨a1, b1, c1⟩ | ⟨a1, b1⟩ <;> rcases h2 with ⟨a2, b2, c2⟩ | ⟨a2, b2⟩
  · rcases Nat.lt_trichotomy e1 e2 with h | h | h
    · exact absurd b1 (not_le.mpr (c2 e1 h))
    · exact h
    · exact absurd b2 (not_le.mpr (c1 e2 h))
  · exact absurd b1 (not_le.mpr (b2 e1 a1))
  · exact absurd b2 (not_le.mpr (b1 e2 a2))
  · rw [a1, a2]

theorem indexScan_length (buf : List ℚ) (count m_width : Nat) :
    (indexScan buf count m_width).length = m_width :=
  scanColumns_length buf count m_width 0 0

theorem indexScan_entry (buf : List ℚ) (count m_width j : Nat) (hj : j < m_width) :
    ∃ e, (indexScan buf count m_width)[j]? = some e ∧ IsColumnEntry buf count j e := by
  have h := scanColumns_entry buf count m_width 0 0 (fun s hs => absurd hs (Nat.not_lt_zero s)) j hj
  simpa [indexScan] using h

end WaveformArea

namespace WaveformArea

theorem find?_range'_spec (p : Nat → Bool) :
    ∀ (n a : Nat),
      (∃ e, (List.range' a n).find? p = some e ∧ a ≤ e ∧ e < a + n ∧ p e = true ∧
          ∀ s, a ≤ s → s < e → p s = false) ∨
      ((List.range' a n).find? p = none ∧ ∀ s, a ≤ s → s < a + n → p s = false) := by
  intro n
  induction n with
  | zero =>
    intro a
    right
    exact ⟨rfl, fun s h1 h2 => by omega⟩
  | succ n ih =>
    intro a
    rw [List.range'_succ, List.find?_cons]
    cases hp : p a with
    | true =>
      left
      exact ⟨a, rfl, le_refl _, by omega, hp, fun s h1 h2 => by omega⟩
    | false =>
      rcases ih (a + 1) with ⟨e, h1, h2, h3, h4, h5⟩ | ⟨h1, h2⟩
      · left
        refine ⟨e, h1, by omega, by omega, h4, fun s hs1 hs2 => ?_⟩
        rcases Nat.eq_or_lt_of_le hs1 with heq | hgt
        · rw [← heq]; exact hp
        · exact h5 s hgt hs2
      · right
        refine ⟨h1, fun s hs1 hs2 => ?_⟩
        rcases Nat.eq_or_lt_of_le hs1 with heq | hgt
        · rw [← heq]; exact hp
        · exact h2 s hgt (by omega)

/-- The naive search returns the entry described by `IsColumnEntry`. -/
theorem naiveColumnSearch_entry (buf : List ℚ) (count j : Nat) :
    IsColumnEntry buf count j (naiveColumnSearch buf count j) := by
  unfold naiveColumnSearch
  rw [List.range_eq_range']
  rcases find?_range'_spec (fun s => decide ((j : ℚ) ≤ sampleX buf (s + 1))) (count - 1) 0 with
    ⟨e, h1, _, h3, h4, h5⟩ | ⟨h1, h2⟩
  · rw [h1]
    left
    refine ⟨by simpa using h3, by simpa using h4, fun s hs => ?_⟩
    have := h5 s (Nat.zero_le s) hs
    simpa using this
  · rw [h1]
    right
    refine ⟨rfl, fun s hs => ?_⟩
    have := h2 s (Nat.zero_le s) (by omega)
    simpa using this

/-- On an analog capture with at least one sample `PrepareGeometry` succeeds, and the index
buffer it leaves is the scan of the trace buffer it leaves. -/
theorem PrepareGeometry_analog (w : WaveformArea) (data : AnalogCapture)
    (hdata : w.m_channel.data = .analog data) (hcount : 1 ≤ data.m_samples.length) :
    (PrepareGeometry w).1 = true ∧
    (PrepareGeometry w).2.m_indexBuffer =
      indexScan (PrepareGeometry w).2.m_traceBuffer data.m_samples.length w.m_width := by
  have hne : ¬ data.m_samples.length = 0 := by omega
  have e : PrepareGeometry w =
      (true, { w with
        m_xoff := (data.m_triggerPhase - (w.m_group.m_xAxisOffset : ℚ)) *
          w.m_group.m_pixelsPerXUnit
        m_traceBuffer := vertexLoop ((data.m_timescale : ℚ) * w.m_group.m_pixelsPerXUnit)
          ((data.m_triggerPhase - (w.m_group.m_xAxisOffset : ℚ)) * w.m_group.m_pixelsPerXUnit)
          w.m_pixelsPerVolt w.m_channel.offset w.m_height data.m_samples
        m_indexBuffer := indexScan
          (vertexLoop ((data.m_timescale : ℚ) * w.m_group.m_pixelsPerXUnit)
            ((data.m_triggerPhase - (w.m_group.m_xAxisOffset : ℚ)) * w.m_group.m_pixelsPerXUnit)
            w.m_pixelsPerVolt w.m_channel.offset w.m_height data.m_samples)
          data.m_samples.length w.m_width
        m_waveformLength := data.m_samples.length
        m_geometryDirty := false }) := by
    simp only [PrepareGeometry, hdata, hne, if_false]
  rw [e]
  exact ⟨rfl, rfl⟩

end WaveformArea

namespace WaveformArea

/-! ## The index buffer of PrepareGeometry -/

/-- C1 (as stated, refuted): in the scenario of five samples at pixel x 0, 10, 20, 30, 40 and
fifty columns, it is not the case that every column `j` records sample `j / 10`. -/
theorem scenario_not_ten_columns_per_sample :
    ¬ ∀ j, j < 50 → (PrepareGeometry scenarioArea).2.m_indexBuffer[j]? = some (j / 10) := by
  decide!

/-- C1 (amended): in the scenario of five samples at pixel x 0, 10, 20, 30, 40 and fifty
columns, `PrepareGeometry` succeeds and records sample 0 for columns 0-10, sample 1 for
columns 11-20, sample 2 for columns 21-30, sample 3 for columns 31-40 and the sentinel 5 for
columns 41-49. -/
theorem scenario_indexBuffer :
    (PrepareGeometry scenarioArea).1 = true ∧
    (PrepareGeometry scenarioArea).2.m_traceBuffer = [0, 50, 10, 50, 20, 50, 30, 50, 40, 50] ∧
    (PrepareGeometry scenarioArea).2.m_indexBuffer =
      List.replicate 11 0 ++ List.replicate 10 1 ++ List.replicate 10 2 ++
        List.replicate 10 3 ++ List.replicate 9 5 := by
  decide!

/-- C2: for every capture with at least one sample and every plot width, `PrepareGeometry`
succeeds and the index buffer it builds, one entry per column, is non-decreasing in the
column number: for columns `j1 ≤ j2` the entry of `j1` is at most the entry of `j2`, the
sentinel `count` being the largest value. (This holds whatever the order of the sample
positions, in particular for non-decreasing offsets.) -/
theorem PrepareGeometry_indexBuffer_monotone (w : WaveformArea) (data : AnalogCapture)
    (hdata : w.m_channel.data = .analog data) (hcount : 1 ≤ data.m_samples.length) :
    (PrepareGeometry w).1 = true ∧
    (PrepareGeometry w).2.m_indexBuffer.length = w.m_width ∧
    ∀ (j1 j2 e1 e2 : Nat), j1 ≤ j2 →
      (PrepareGeometry w).2.m_indexBuffer[j1]? = some e1 →
      (PrepareGeometry w).2.m_indexBuffer[j2]? = some e2 →
      e1 ≤ e2 ∧ e2 ≤ data.m_samples.length := by
  obtain ⟨hok, hidx⟩ := PrepareGeometry_analog w data hdata hcount
  refine ⟨hok, by rw [hidx, indexScan_length], ?_⟩
  intro j1 j2 e1 e2 hle h1 h2
  rw [hidx] at h1 h2
  have hj2 : j2 < w.m_width := by
    have := (List.getElem?_eq_some.mp h2).1
    rwa [indexScan_length] at this
  obtain ⟨a1, ha1, hc1⟩ := indexScan_entry _ data.m_samples.length w.m_width j1 (by omega)
  obtain ⟨a2, ha2, hc2⟩ := indexScan_entry _ data.m_samples.length w.m_width j2 hj2
  rw [h1] at ha1
  rw [h2] at ha2
  cases ha1
  cases ha2
  have hq : (j1 : ℚ) ≤ (j2 : ℚ) := by exact_mod_cast hle
  rcases hc2 with ⟨b1, b2, _⟩ | ⟨b1, _⟩
  · refine ⟨?_, by omega⟩
    rcases hc1 with ⟨c1, c2, c3⟩ | ⟨c1, c2⟩
    · by_contra hcon
      have := c3 e2 (by omega)
      linarith
    · have := c2 e2 b1
      linarith
  · refine ⟨?_, by omega⟩
    rcases hc1 with ⟨c1, _, _⟩ | ⟨c1, _⟩ <;> omega

/-- C2, instance: the scenario area. -/
theorem PrepareGeometry_indexBuffer_monotone_witness :
    (PrepareGeometry scenarioArea).1 = true ∧
    (PrepareGeometry scenarioArea).2.m_indexBuffer.length = scenarioArea.m_width ∧
    ∀ (j1 j2 e1 e2 : Nat), j1 ≤ j2 →
      (PrepareGeometry scenarioArea).2.m_indexBuffer[j1]? = some e1 →
      (PrepareGeometry scenarioArea).2.m_indexBuffer[j2]? = some e2 →
      e1 ≤ e2 ∧ e2 ≤ scenarioCapture.m_samples.length :=
  PrepareGeometry_indexBuffer_monotone scenarioArea scenarioCapture rfl (by decide)

/-- C3: for every capture with `count ≥ 1` samples and every plot width, the index buffer
built by `PrepareGeometry` has one entry per column and each entry is either a valid sample
index, below `count`, or exactly the sentinel `count`. -/
theorem PrepareGeometry_indexBuffer_in_range (w : WaveformArea) (data : AnalogCapture)
    (hdata : w.m_channel.data = .analog data) (hcount : 1 ≤ data.m_samples.length) :
    (PrepareGeometry w).2.m_indexBuffer.length = w.m_width ∧
    ∀ e, e ∈ (PrepareGeometry w).2.m_indexBuffer →
      e < data.m_samples.length ∨ e = data.m_samples.length := by
  obtain ⟨_, hidx⟩ := PrepareGeometry_analog w data hdata hcount
  refine ⟨by rw [hidx, indexScan_length], ?_⟩
  intro e he
  rw [hidx] at he
  obtain ⟨j, hj, hje⟩ := List.getElem_of_mem he
  rw [indexScan_length] at hj
  obtain ⟨a, ha, hc⟩ := indexScan_entry _ data.m_samples.length w.m_width j hj
  have hsome : (indexScan (PrepareGeometry w).2.m_traceBuffer data.m_samples.length
      w.m_width)[j]? = some e := by
    rw [List.getElem?_eq_some]
    exact ⟨by rw [indexScan_length]; exact hj, hje⟩
  rw [hsome] at ha
  cases ha
  rcases hc with ⟨c1, _, _⟩ | ⟨c1, _⟩
  · left; omega
  · right; exact c1

/-- C3, instance: the capture whose spacing is narrower than one pixel. -/
theorem PrepareGeometry_indexBuffer_in_range_witness :
    (PrepareGeometry denseArea).2.m_indexBuffer.length = denseArea.m_width ∧
    ∀ e, e ∈ (PrepareGeometry denseArea).2.m_indexBuffer →
      e < denseCapture.m_samples.length ∨ e = denseCapture.m_samples.length :=
  PrepareGeometry_indexBuffer_in_range denseArea denseCapture rfl (by decide)

/-- C4: for every capture with `count ≥ 1` and every plot width, the forward two-pointer scan
of `PrepareGeometry` computes the same index buffer as the naive per-column search: the entry
of every column `j` in `[0, width)` is the least `s` with `s < count - 1` and `x_{s+1} ≥ j`, or
the sentinel `count` when no such `s` exists. (No ordering of the positions is needed.) -/
theorem PrepareGeometry_indexBuffer_eq_naive (w : WaveformArea) (data : AnalogCapture)
    (hdata : w.m_channel.data = .analog data) (hcount : 1 ≤ data.m_samples.length) :
    (PrepareGeometry w).2.m_indexBuffer =
      (List.range w.m_width).map
        (naiveColumnSearch (PrepareGeometry w).2.m_traceBuffer data.m_samples.length) ∧
    ∀ j, j < w.m_width →
      IsColumnEntry (PrepareGeometry w).2.m_traceBuffer data.m_samples.length j
        (naiveColumnSearch (PrepareGeometry w).2.m_traceBuffer data.m_samples.length j) := by
  obtain ⟨_, hidx⟩ := PrepareGeometry_analog w data hdata hcount
  refine ⟨?_, fun j _ => naiveColumnSearch_entry _ _ j⟩
  rw [hidx]
  apply List.ext_getElem?
  intro j
  by_cases hj : j < w.m_width
  · obtain ⟨a, ha, hc⟩ := indexScan_entry (PrepareGeometry w).2.m_traceBuffer
      data.m_samples.length w.m_width j hj
    rw [ha, List.getElem?_map, List.getElem?_range hj]
    simp only [Option.map_some']
    rw [IsColumnEntry_unique _ _ _ _ _ hc (naiveColumnSearch_entry _ _ j)]
  · rw [List.getElem?_eq_none (by rw [indexScan_length]; omega),
      List.getElem?_eq_none (by rw [List.length_map, List.length_range]; omega)]

/-- C4, instance: the scenario area. -/
theorem PrepareGeometry_indexBuffer_eq_naive_witness :
    (PrepareGeometry scenarioArea).2.m_indexBuffer =
      (List.range scenarioArea.m_width).map
        (naiveColumnSearch (PrepareGeometry scenarioArea).2.m_traceBuffer
          scenarioCapture.m_samples.length) ∧
    ∀ j, j < scenarioArea.m_width →
      IsColumnEntry (PrepareGeometry scenarioArea).2.m_traceBuffer
        scenarioCapture.m_samples.length j
        (naiveColumnSearch (PrepareGeometry scenarioArea).2.m_traceBuffer
          scenarioCapture.m_samples.length j) :=
  PrepareGeometry_indexBuffer_eq_naive scenarioArea scenarioCapture rfl (by decide)

end WaveformArea

namespace WaveformArea

/-- C5 (as stated, refuted): in the scenario, column 45 holds the sentinel 5 although a sample
starts at or before column 45 (sample 0, at pixel x 0): "sentinel if and only if no sample
starts at or before the column" fails. -/
theorem scenario_sentinel_despite_sample_left :
    ¬ ((PrepareGeometry scenarioArea).2.m_indexBuffer[45]? =
          some scenarioCapture.m_samples.length ↔
        ¬ ∃ i, i < scenarioCapture.m_samples.length ∧
          sampleX (PrepareGeometry scenarioArea).2.m_traceBuffer i ≤ ((45 : Nat) : ℚ)) := by
  decide!

/-- C5 (amended): for every capture with `count ≥ 1` and every column `j`, the index-buffer
entry for column `j` is the sentinel `count` if and only if every sample after the first
starts strictly left of column `j` (there is no `i` with `1 ≤ i < count` and `x_i ≥ j`);
otherwise it is a valid sample index, below `count - 1`. -/
theorem PrepareGeometry_sentinel_iff (w : WaveformArea) (data : AnalogCapture)
    (hdata : w.m_channel.data = .analog data) (hcount : 1 ≤ data.m_samples.length)
    (j : Nat) (hj : j < w.m_width) :
    ∃ e, (PrepareGeometry w).2.m_indexBuffer[j]? = some e ∧
      (e = data.m_samples.length ↔
        ∀ i, 1 ≤ i → i < data.m_samples.length →
          sampleX (PrepareGeometry w).2.m_traceBuffer i < (j : ℚ)) ∧
      (e ≠ data.m_samples.length → e < data.m_samples.length - 1) := by
  obtain ⟨_, hidx⟩ := PrepareGeometry_analog w data hdata hcount
  obtain ⟨e, he, hc⟩ := indexScan_entry (PrepareGeometry w).2.m_traceBuffer
    data.m_samples.length w.m_width j hj
  refine ⟨e, by rw [hidx]; exact he, ?_, ?_⟩
  · rcases hc with ⟨c1, c2, _⟩ | ⟨c1, c2⟩
    · constructor
      · intro h; omega
      · intro h
        have := h (e + 1) (by omega) (by omega)
        linarith
    · constructor
      · intro _ i hi1 hi2
        have := c2 (i - 1) (by omega)
        have hi : i - 1 + 1 = i := by omega
        rwa [hi] at this
      · intro _; exact c1
  · intro hne
    rcases hc with ⟨c1, _, _⟩ | ⟨c1, _⟩
    · exact c1
    · exact absurd c1 hne

/-- C5 (amended), instance: column 45 of the scenario area. -/
theorem PrepareGeometry_sentinel_iff_witness :
    ∃ e, (PrepareGeometry scenarioArea).2.m_indexBuffer[45]? = some e ∧
      (e = scenarioCapture.m_samples.length ↔
        ∀ i, 1 ≤ i → i < scenarioCapture.m_samples.length →
          sampleX (PrepareGeometry scenarioArea).2.m_traceBuffer i < ((45 : Nat) : ℚ)) ∧
      (e ≠ scenarioCapture.m_samples.length → e < scenarioCapture.m_samples.length - 1) :=
  PrepareGeometry_sentinel_iff scenarioArea scenarioCapture rfl (by decide) 45 (by decide)

/-- C6 (as stated, refuted): in the capture with half-pixel spacing the positions are
non-decreasing, samples 2 and 3 start in column 1 (pixel x 1 and 3/2) and sample 2 is the first
that does, yet column 1 records sample 1, not sample 2. -/
theorem dense_column_records_not_first_sample :
    (∀ i, i < 6 → ∀ k, k < 6 → i ≤ k →
      sampleX (PrepareGeometry denseArea).2.m_traceBuffer i ≤
        sampleX (PrepareGeometry denseArea).2.m_traceBuffer k) ∧
    StartsInColumn (PrepareGeometry denseArea).2.m_traceBuffer 2 1 ∧
    StartsInColumn (PrepareGeometry denseArea).2.m_traceBuffer 3 1 ∧
    (∀ i, i < 2 → ¬ StartsInColumn (PrepareGeometry denseArea).2.m_traceBuffer i 1) ∧
    (PrepareGeometry denseArea).2.m_indexBuffer[1]? = some 1 ∧
    (PrepareGeometry denseArea).2.m_indexBuffer[1]? ≠ some 2 := by
  decide!

/-- C6 (amended): for every capture with non-decreasing sample pixel-x positions and every
column `j` in which two or more samples start (pixel x in `[j, j+1)`), `f` being the first of
them, the index recorded for column `j` is `f - 1`, the sample just before the first one that
starts in the column; it is `f` itself only when `f` is sample 0. -/
theorem tieBreak_records_predecessor (w : WaveformArea) (data : AnalogCapture)
    (hdata : w.m_channel.data = .analog data)
    (hsorted : ∀ i k, i ≤ k → k < data.m_samples.length →
      sampleX (PrepareGeometry w).2.m_traceBuffer i ≤
        sampleX (PrepareGeometry w).2.m_traceBuffer k)
    (j f g : Nat) (hj : j < w.m_width)
    (hf : StartsInColumn (PrepareGeometry w).2.m_traceBuffer f j)
    (hfirst : ∀ i, i < f → ¬ StartsInColumn (PrepareGeometry w).2.m_traceBuffer i j)
    (hfg : f < g) (hg : g < data.m_samples.length)
    (hgs : StartsInColumn (PrepareGeometry w).2.m_traceBuffer g j) :
    (PrepareGeometry w).2.m_indexBuffer[j]? = some (f - 1) ∧
    ((PrepareGeometry w).2.m_indexBuffer[j]? = some f ↔ f = 0) := by
  obtain ⟨_, hidx⟩ := PrepareGeometry_analog w data hdata (by omega)
  obtain ⟨e, he, hc⟩ := indexScan_entry (PrepareGeometry w).2.m_traceBuffer
    data.m_samples.length w.m_width j hj
  have _hnext := hgs.1
  have hleft : ∀ i, i < f → sampleX (PrepareGeometry w).2.m_traceBuffer i < (j : ℚ) := by
    intro i hi
    by_contra hcon
    apply hfirst i hi
    refine ⟨not_lt.mp hcon, lt_of_le_of_lt (hsorted i f (by omega) (by omega)) hf.2⟩
  have hnext : (j : ℚ) ≤ sampleX (PrepareGeometry w).2.m_traceBuffer (f + 1) :=
    le_trans hf.1 (hsorted f (f + 1) (by omega) (by omega))
  have hentry : IsColumnEntry (PrepareGeometry w).2.m_traceBuffer data.m_samples.length j
      (f - 1) := by
    left
    rcases Nat.eq_zero_or_pos f with h0 | hpos
    · subst h0
      exact ⟨by omega, hnext, fun s hs => by omega⟩
    · have hf1 : f - 1 + 1 = f := by omega
      refine ⟨by omega, by rw [hf1]; exact hf.1, fun s hs => hleft (s + 1) (by omega)⟩
  have hval : e = f - 1 := IsColumnEntry_unique _ _ _ _ _ hc hentry
  have hres : (PrepareGeometry w).2.m_indexBuffer[j]? = some (f - 1) := by
    rw [hidx, he, hval]
  refine ⟨hres, ?_⟩
  rw [hres]
  constructor
  · intro h
    have := Option.some.inj h
    omega
  · intro h
    rw [h]

/-- C6 (amended), instance: column 1 of the capture with half-pixel spacing, where samples 2
and 3 start: the column records sample 1. -/
theorem tieBreak_records_predecessor_witness :
    (PrepareGeometry denseArea).2.m_indexBuffer[1]? = some (2 - 1) ∧
    ((PrepareGeometry denseArea).2.m_indexBuffer[1]? = some 2 ↔ 2 = 0) :=
  tieBreak_records_predecessor denseArea denseCapture rfl
    (by
      have h : ∀ k, k < 6 → ∀ i, i ≤ k →
          sampleX (PrepareGeometry denseArea).2.m_traceBuffer i ≤
            sampleX (PrepareGeometry denseArea).2.m_traceBuffer k := by decide!
      intro i k hik hk
      exact h k hk i hik)
    1 2 3 (by decide) (by decide!) (by decide!) (by decide) (by decide) (by decide!)

end WaveformArea

namespace WaveformArea

/-! ## The frame -/

end WaveformArea

namespace WaveformArea

/-! ## Coordinate mapping: round trips -/

theorem truncToInt_abs_sub_lt_one (q : ℚ) : |(truncToInt q : ℚ) - q| < 1 := by
  unfold truncToInt
  split
  · have h1 := Int.floor_le q
    have h2 := Int.lt_floor_add_one q
    rw [abs_lt]
    constructor <;> linarith
  · have h1 := Int.le_ceil q
    have h2 := Int.ceil_lt_add_one q
    rw [abs_lt]
    constructor <;> linarith

theorem truncToInt_intCast (n : Int) : truncToInt (n : ℚ) = n := by
  unfold truncToInt
  split
  · exact Int.floor_intCast n
  · exact Int.ceil_intCast n

theorem abs_truncToInt_le (q : ℚ) : |(truncToInt q : ℚ)| ≤ |q| := by
  unfold truncToInt
  split
  · rename_i h
    have h1 := Int.floor_le q
    have h2 : (0 : ℚ) ≤ (⌊q⌋ : ℚ) := by exact_mod_cast Int.floor_nonneg.mpr h
    rw [abs_of_nonneg h2, abs_of_nonneg h]
    exact h1
  · rename_i h
    have hq : q < 0 := not_le.mp h
    have h1 := Int.le_ceil q
    have h2 : ((⌈q⌉ : Int) : ℚ) ≤ 0 := by exact_mod_cast Int.ceil_le.mpr (by simpa using hq.le)
    rw [abs_of_nonpos h2, abs_of_neg hq]
    linarith

/-- The pixel to time conversion is defined for a pixel of the plot when the times of the plot
fit `int64_t`: the result is the x-axis offset plus the truncated quotient. -/
theorem XPositionToXAxisUnits_eq (w : WaveformArea) (pix : ℚ)
    (hscale : w.m_group.m_pixelsPerXUnit ≠ 0)
    (hplot : 0 ≤ pix ∧ pix ≤ (w.m_plotRight : ℚ))
    (hrange : |(w.m_group.m_xAxisOffset : ℚ)| +
      (w.m_plotRight : ℚ) / |w.m_group.m_pixelsPerXUnit| < 2 ^ 63) :
    XPositionToXAxisUnits w pix =
      some (w.m_group.m_xAxisOffset + truncToInt (pix / w.m_group.m_pixelsPerXUnit)) := by
  have hpos : 0 < |w.m_group.m_pixelsPerXUnit| := abs_pos.mpr hscale
  have hq : |pix / w.m_group.m_pixelsPerXUnit| ≤
      (w.m_plotRight : ℚ) / |w.m_group.m_pixelsPerXUnit| := by
    rw [abs_div, abs_of_nonneg hplot.1]
    exact div_le_div_of_nonneg_right hplot.2 hpos.le
  have ht := (abs_truncToInt_le (pix / w.m_group.m_pixelsPerXUnit)).trans hq
  have hoff := abs_nonneg (w.m_group.m_xAxisOffset : ℚ)
  have hsum : |((w.m_group.m_xAxisOffset + truncToInt (pix / w.m_group.m_pixelsPerXUnit) : Int)
      : ℚ)| < 2 ^ 63 := by
    push_cast
    exact lt_of_le_of_lt (abs_add _ _) (by linarith)
  have htr : |((truncToInt (pix / w.m_group.m_pixelsPerXUnit) : Int) : ℚ)| < 2 ^ 63 := by
    linarith
  rw [abs_lt] at hsum htr
  have c1 : -2 ^ 63 ≤ truncToInt (pix / w.m_group.m_pixelsPerXUnit) ∧
      truncToInt (pix / w.m_group.m_pixelsPerXUnit) < 2 ^ 63 := by
    constructor
    · have := htr.1.le
      exact_mod_cast this
    · exact_mod_cast htr.2
  have c2 : -2 ^ 63 ≤ w.m_group.m_xAxisOffset + truncToInt (pix / w.m_group.m_pixelsPerXUnit) ∧
      w.m_group.m_xAxisOffset + truncToInt (pix / w.m_group.m_pixelsPerXUnit) < 2 ^ 63 := by
    constructor
    · have := hsum.1.le
      exact_mod_cast this
    · exact_mod_cast hsum.2
  unfold XPositionToXAxisUnits PixelsToXAxisUnits toInt64
  rw [if_neg hscale, if_pos c1, Option.some_bind]
  unfold addInt64
  rw [if_pos c2]

/-- The time the round trip starts from, mapped back to a pixel position: the truncated
quotient times the scale. -/
theorem xRoundTrip_eq (w : WaveformArea) (pix : ℚ) :
    XAxisUnitsToXPosition w
        (w.m_group.m_xAxisOffset + truncToInt (pix / w.m_group.m_pixelsPerXUnit)) =
      (truncToInt (pix / w.m_group.m_pixelsPerXUnit) : ℚ) * w.m_group.m_pixelsPerXUnit := by
  unfold XAxisUnitsToXPosition XAxisUnitsToPixels
  congr 1
  push_cast
  ring

/-- C9 (as stated, refuted): at 2 pixels per x-axis unit and x-axis offset 0, the pixel
position 3, inside the plot, comes back from the round trip as 2. -/
theorem xRoundTrip_loses_pixel :
    zoomedArea.m_group.m_pixelsPerXUnit ≠ 0 ∧
    (0 : ℚ) ≤ 3 ∧ (3 : ℚ) < (zoomedArea.m_plotRight : ℚ) ∧
    XPositionToXAxisUnits zoomedArea 3 = some 1 ∧
    (XPositionToXAxisUnits zoomedArea 3).map (XAxisUnitsToXPosition zoomedArea) = some 2 ∧
    (XPositionToXAxisUnits zoomedArea 3).map (XAxisUnitsToXPosition zoomedArea) ≠ some 3 := by
  decide!

/-- The time of a pixel is not defined for every scale: at `2^63` x-axis units per pixel the
pixel position 1, inside the plot, has the quotient `2^63`, which no `int64_t` holds; nor is
the time of the pixel position `10^30` at 1 pixel per unit. -/
theorem XPositionToXAxisUnits_out_of_range :
    wideSpanArea.m_group.m_pixelsPerXUnit ≠ 0 ∧
    (0 : ℚ) ≤ 1 ∧ (1 : ℚ) < (wideSpanArea.m_plotRight : ℚ) ∧
    XPositionToXAxisUnits wideSpanArea 1 = none ∧
    XPositionToXAxisUnits scenarioArea (10 ^ 30) = none := by
  decide!

/-- C9 (amended): for every non-zero horizontal scale `m_pixelsPerXUnit` and x-axis offset for
which the times of the plot fit `int64_t`
(`|m_xAxisOffset| + m_plotRight / |m_pixelsPerXUnit| < 2^63`) and every pixel position `pix`
inside the plot (`0 ≤ pix ≤ m_plotRight`), `XPositionToXAxisUnits(pix)` is defined and
`XAxisUnitsToXPosition(XPositionToXAxisUnits(pix))` differs from `pix` by less than
`|m_pixelsPerXUnit|` (the time is truncated to a whole number of x-axis units), and
reproduces `pix` exactly when `pix` is a whole multiple of `m_pixelsPerXUnit`. -/
theorem xRoundTrip_within_one_unit (w : WaveformArea) (pix : ℚ)
    (hscale : w.m_group.m_pixelsPerXUnit ≠ 0)
    (hplot : 0 ≤ pix ∧ pix ≤ (w.m_plotRight : ℚ))
    (hrange : |(w.m_group.m_xAxisOffset : ℚ)| +
      (w.m_plotRight : ℚ) / |w.m_group.m_pixelsPerXUnit| < 2 ^ 63) :
    ∃ t : Int, XPositionToXAxisUnits w pix = some t ∧
      |XAxisUnitsToXPosition w t - pix| < |w.m_group.m_pixelsPerXUnit| ∧
      ∀ n : Int, pix = (n : ℚ) * w.m_group.m_pixelsPerXUnit →
        XAxisUnitsToXPosition w t = pix := by
  refine ⟨_, XPositionToXAxisUnits_eq w pix hscale hplot hrange, ?_⟩
  rw [xRoundTrip_eq]
  constructor
  · have h := truncToInt_abs_sub_lt_one (pix / w.m_group.m_pixelsPerXUnit)
    have hpos : 0 < |w.m_group.m_pixelsPerXUnit| := abs_pos.mpr hscale
    have e : (truncToInt (pix / w.m_group.m_pixelsPerXUnit) : ℚ) * w.m_group.m_pixelsPerXUnit
        - pix =
        ((truncToInt (pix / w.m_group.m_pixelsPerXUnit) : ℚ) - pix / w.m_group.m_pixelsPerXUnit)
          * w.m_group.m_pixelsPerXUnit := by
      field_simp
    rw [e, abs_mul]
    calc |(truncToInt (pix / w.m_group.m_pixelsPerXUnit) : ℚ) - pix / w.m_group.m_pixelsPerXUnit|
          * |w.m_group.m_pixelsPerXUnit|
        < 1 * |w.m_group.m_pixelsPerXUnit| := mul_lt_mul_of_pos_right h hpos
      _ = |w.m_group.m_pixelsPerXUnit| := one_mul _
  · intro n hn
    have hq : pix / w.m_group.m_pixelsPerXUnit = (n : ℚ) := by
      rw [hn]
      field_simp
    rw [hq, truncToInt_intCast, hn]

/-- C9 (amended), instance: the zoomed area (2 pixels per unit, offset 0, plot 50 pixels wide)
at pixel position 3, which is inside the plot and whose time fits `int64_t`. -/
theorem xRoundTrip_within_one_unit_witness :
    (zoomedArea.m_group.m_pixelsPerXUnit ≠ 0 ∧
      ((0 : ℚ) ≤ 3 ∧ (3 : ℚ) ≤ (zoomedArea.m_plotRight : ℚ)) ∧
      |(zoomedArea.m_group.m_xAxisOffset : ℚ)| +
        (zoomedArea.m_plotRight : ℚ) / |zoomedArea.m_group.m_pixelsPerXUnit| < 2 ^ 63) ∧
    ∃ t : Int, XPositionToXAxisUnits zoomedArea 3 = some t ∧
      |XAxisUnitsToXPosition zoomedArea t - 3| < |zoomedArea.m_group.m_pixelsPerXUnit| ∧
      ∀ n : Int, (3 : ℚ) = (n : ℚ) * zoomedArea.m_group.m_pixelsPerXUnit →
        XAxisUnitsToXPosition zoomedArea t = 3 :=
  ⟨by decide!, xRoundTrip_within_one_unit zoomedArea 3 (by decide!) (by decide!) (by decide!)⟩

/-- C10: for every non-zero `m_pixelsPerVolt`, every channel offset, every plot height and
every voltage `v`, `YPositionToVolts(VoltsToYPosition(v)) = v` over exact arithmetic: the
`m_height/2` midline term and the channel offset cancel. -/
theorem yRoundTrip (w : WaveformArea) (v : ℚ) (hscale : w.m_pixelsPerVolt ≠ 0) :
    YPositionToVolts w (VoltsToYPosition w v) = v := by
  unfold YPositionToVolts VoltsToYPosition PixelsToVolts VoltsToPixels
  field_simp

/-- C10, instance: the scenario area (100 pixels per volt) at a third of a volt. -/
theorem yRoundTrip_witness :
    YPositionToVolts scenarioArea (VoltsToYPosition scenarioArea (1 / 3)) = 1 / 3 :=
  yRoundTrip scenarioArea (1 / 3) (by decide!)

end WaveformArea

namespace WaveformArea

/-! ## Overlay slots -/

open RenderDecodeOverlays

theorem slotIndex_nonneg (pos : Int) (h : 0 ≤ pos) : 0 ≤ Int.tdiv (pos - midline) spacing := by
  have hm : midline = 15 := by decide
  have hs : spacing = 30 := by decide
  rw [hm, hs]
  by_cases h15 : 0 ≤ pos - 15
  · exact Int.tdiv_nonneg h15 (by decide)
  · have e : pos - 15 = -(15 - pos) := by ring
    rw [e, Int.neg_tdiv, Int.tdiv_eq_ediv (by omega) (by decide)]
    omega

theorem slotIndex_of_slot (i : Nat) :
    Int.tdiv (midline + spacing * (i : Int) - midline) spacing = (i : Int) := by
  have hm : midline = 15 := by decide
  have hs : spacing = 30 := by decide
  rw [hm, hs, Int.tdiv_eq_ediv (by omega) (by decide)]
  omega

theorem getD_set_true (l : List Bool) (k i : Nat) (hk : k < l.length) :
    (l.set k true).getD i false = (l.getD i false || decide (i = k)) := by
  simp only [List.getD_eq_getElem?_getD, List.getElem?_set]
  by_cases h : k = i
  · subst h
    simp [hk]
  · have h2 : ¬ i = k := fun e => h e.symm
    simp [h, h2]

theorem slotUsedBy_cons (m : Nat → Option Int) (o : Nat) (os : List Nat) (i : Nat) :
    slotUsedBy m (o :: os) i =
      ((match m o with
        | some pos => decide (0 ≤ pos) && decide (Int.tdiv (pos - midline) spacing = (i : Int))
        | none => false) || slotUsedBy m os i) := by
  simp [slotUsedBy]

theorem markUsed_spec (m : Nat → Option Int) :
    ∀ (os : List Nat) (used : List Bool), used.length = max_overlays →
      (markUsed m os used).length = max_overlays ∧
      ∀ i, i < max_overlays →
        (markUsed m os used).getD i false = (used.getD i false || slotUsedBy m os i) := by
  intro os
  induction os with
  | nil =>
    intro used hlen
    refine ⟨hlen, fun i _ => ?_⟩
    simp [markUsed, slotUsedBy]
  | cons o os ih =>
    intro used hlen
    cases hm : m o with
    | none =>
      have e : markUsed m (o :: os) used = markUsed m os used := by
        simp only [markUsed, hm]
      rw [e]
      refine ⟨(ih used hlen).1, fun i hi => ?_⟩
      rw [(ih used hlen).2 i hi, slotUsedBy_cons, hm]
      simp
    | some pos =>
      by_cases hg : pos ≥ 0 ∧ Int.tdiv (pos - midline) spacing < (max_overlays : Int)
      · have e : markUsed m (o :: os) used =
            markUsed m os (used.set (Int.tdiv (pos - midline) spacing).toNat true) := by
          simp only [markUsed, hm, hg, and_self, if_true]
        rw [e]
        have hnn := slotIndex_nonneg pos hg.1
        have hlt : (Int.tdiv (pos - midline) spacing).toNat < used.length := by
          rw [hlen]
          have := hg.2
          omega
        have hlen2 : (used.set (Int.tdiv (pos - midline) spacing).toNat true).length =
            max_overlays := by
          rw [List.length_set]; exact hlen
        refine ⟨(ih _ hlen2).1, fun i hi => ?_⟩
        rw [(ih _ hlen2).2 i hi, getD_set_true _ _ _ hlt, slotUsedBy_cons, hm]
        have hiff : (i = (Int.tdiv (pos - midline) spacing).toNat) ↔
            (Int.tdiv (pos - midline) spacing = (i : Int)) := by
          constructor
          · intro h; omega
          · intro h; omega
        have h0 : decide (0 ≤ pos) = true := by simpa using hg.1
        simp only [h0, Bool.true_and, decide_eq_decide.mpr hiff, Bool.or_assoc]
      · have e : markUsed m (o :: os) used = markUsed m os used := by
          simp only [markUsed, hm, hg, if_false]
        rw [e]
        refine ⟨(ih used hlen).1, fun i hi => ?_⟩
        rw [(ih used hlen).2 i hi, slotUsedBy_cons, hm]
        have hfalse : (decide (0 ≤ pos) &&
            decide (Int.tdiv (pos - midline) spacing = (i : Int))) = false := by
          by_cases hp : 0 ≤ pos
          · have hbig : ¬ Int.tdiv (pos - midline) spacing < (max_overlays : Int) :=
              fun h => hg ⟨hp, h⟩
            have hne : ¬ Int.tdiv (pos - midline) spacing = (i : Int) := by
              intro h
              apply hbig
              rw [h]
              exact_mod_cast hi
            simp [hne]
          · simp [hp]
        simp [hfalse]

end WaveformArea

namespace WaveformArea

open RenderDecodeOverlays

theorem assignLoop_keeps (l : List Nat) :
    ∀ (st : (Nat → Option Int) × List Bool) (k : Nat) (p : Int),
      st.1 k = some p → (assignLoop l st).1 k = some p := by
  induction l with
  | nil => intro st k p h; exact h
  | cons o rest ih =>
    intro st k p h
    obtain ⟨m, used⟩ := st
    cases hm : m o with
    | some q =>
      have e : assignLoop (o :: rest) (m, used) = assignLoop rest (m, used) := by
        simp only [assignLoop, hm]
      rw [e]
      exact ih _ k p h
    | none =>
      cases hf : (List.range max_overlays).find? (fun i => !used.getD i false) with
      | none =>
        have e : assignLoop (o :: rest) (m, used) = assignLoop rest (m, used) := by
          simp only [assignLoop, hm, hf]
        rw [e]
        exact ih _ k p h
      | some i =>
        have e : assignLoop (o :: rest) (m, used) =
            assignLoop rest (setPosition m o (midline + spacing * (i : Int)), used.set i true) := by
          simp only [assignLoop, hm, hf]
        rw [e]
        apply ih
        have hk : k ≠ o := by
          intro hko
          rw [hko] at h
          simp only at h
          rw [hm] at h
          exact Option.noConfusion h
        simp only [setPosition, hk, if_false]
        exact h

theorem assignLoop_untouched (l : List Nat) :
    ∀ (st : (Nat → Option Int) × List Bool) (k : Nat),
      k ∉ l → (assignLoop l st).1 k = st.1 k := by
  induction l with
  | nil => intro st k _; rfl
  | cons o rest ih =>
    intro st k hk
    obtain ⟨m, used⟩ := st
    have hko : k ≠ o := fun e => hk (by rw [e]; exact List.mem_cons_self _ _)
    have hkr : k ∉ rest := fun e => hk (List.mem_cons_of_mem _ e)
    cases hm : m o with
    | some q =>
      have e : assignLoop (o :: rest) (m, used) = assignLoop rest (m, used) := by
        simp only [assignLoop, hm]
      rw [e]
      exact ih _ k hkr
    | none =>
      cases hf : (List.range max_overlays).find? (fun i => !used.getD i false) with
      | none =>
        have e : assignLoop (o :: rest) (m, used) = assignLoop rest (m, used) := by
          simp only [assignLoop, hm, hf]
        rw [e]
        exact ih _ k hkr
      | some i =>
        have e : assignLoop (o :: rest) (m, used) =
            assignLoop rest (setPosition m o (midline + spacing * (i : Int)), used.set i true) := by
          simp only [assignLoop, hm, hf]
        rw [e, ih _ k hkr]
        simp only [setPosition, hko, if_false]

theorem assignLoop_append (l1 l2 : List Nat) :
    ∀ (st : (Nat → Option Int) × List Bool),
      assignLoop (l1 ++ l2) st = assignLoop l2 (assignLoop l1 st) := by
  induction l1 with
  | nil => intro st; rfl
  | cons o rest ih =>
    intro st
    obtain ⟨m, used⟩ := st
    cases hm : m o with
    | some q =>
      simp only [List.cons_append, assignLoop, hm]
      exact ih _
    | none =>
      cases hf : (List.range max_overlays).find? (fun i => !used.getD i false) with
      | none =>
        simp only [List.cons_append, assignLoop, hm, hf]
        exact ih _
      | some i =>
        simp only [List.cons_append, assignLoop, hm, hf]
        exact ih _

/-- The search of the inner loop of the second pass: it finds the least index whose flag is
clear, and finds nothing only when all flags are set. -/
theorem firstUnused_spec (used : List Bool) :
    (∃ i, (List.range max_overlays).find? (fun i => !used.getD i false) = some i ∧
        i < max_overlays ∧ used.getD i false = false ∧
        ∀ k, k < i → used.getD k false = true) ∨
    ((List.range max_overlays).find? (fun i => !used.getD i false) = none ∧
      ∀ k, k < max_overlays → used.getD k false = true) := by
  rw [List.range_eq_range']
  rcases find?_range'_spec (fun i => !used.getD i false) max_overlays 0 with
    ⟨e, h1, _, h3, h4, h5⟩ | ⟨h1, h2⟩
  · left
    refine ⟨e, h1, by omega, by simpa using h4, fun k hk => ?_⟩
    simpa using h5 k (Nat.zero_le k) hk
  · right
    refine ⟨h1, fun k hk => ?_⟩
    simpa using h2 k (Nat.zero_le k) (by omega)

theorem slotUsedBy_setPosition (m : Nat → Option Int) (o i0 i : Nat) (hm : m o = none) :
    ∀ l : List Nat,
      slotUsedBy (setPosition m o (midline + spacing * (i0 : Int))) l i =
        (slotUsedBy m l i || (decide (o ∈ l) && decide (i = i0))) := by
  intro l
  induction l with
  | nil => simp [slotUsedBy]
  | cons a rest ih =>
    rw [slotUsedBy_cons, slotUsedBy_cons, ih]
    by_cases ha : a = o
    · subst ha
      have hs : setPosition m a (midline + spacing * (i0 : Int)) a =
          some (midline + spacing * (i0 : Int)) := by simp [setPosition]
      rw [hs, hm]
      have h0 : (0 : Int) ≤ midline + spacing * (i0 : Int) := by
        have hm : midline = 15 := by decide
        have hs : spacing = 30 := by decide
        rw [hm, hs]; omega
      have hiff : (Int.tdiv (midline + spacing * (i0 : Int) - midline) spacing = (i : Int)) ↔
          i = i0 := by
        rw [slotIndex_of_slot]
        constructor
        · intro h; omega
        · intro h; omega
      simp only [decide_eq_true h0, Bool.true_and, decide_eq_decide.mpr hiff,
        List.mem_cons, true_or, decide_True]
      cases decide (i = i0) <;> simp
    · have hs : setPosition m o (midline + spacing * (i0 : Int)) a = m a := by
        simp [setPosition, ha]
      rw [hs]
      have hne : ¬ o = a := fun e => ha e.symm
      simp only [List.mem_cons, hne, false_or]
      cases (match m a with
        | some pos => decide (0 ≤ pos) && decide (Int.tdiv (pos - midline) spacing = (i : Int))
        | none => false) <;> cases slotUsedBy m rest i <;> simp

theorem assignLoop_flagsAgree (m_overlays : List Nat) (l : List Nat) :
    ∀ (st : (Nat → Option Int) × List Bool),
      (∀ o, o ∈ l → o ∈ m_overlays) → FlagsAgree m_overlays st →
      FlagsAgree m_overlays (assignLoop l st) := by
  induction l with
  | nil => intro st _ h; exact h
  | cons o rest ih =>
    intro st hsub hinv
    obtain ⟨m, used⟩ := st
    have hrest : ∀ a, a ∈ rest → a ∈ m_overlays := fun a ha => hsub a (List.mem_cons_of_mem _ ha)
    cases hm : m o with
    | some q =>
      have e : assignLoop (o :: rest) (m, used) = assignLoop rest (m, used) := by
        simp only [assignLoop, hm]
      rw [e]
      exact ih _ hrest hinv
    | none =>
      rcases firstUnused_spec used with ⟨i0, hf, hi0, _, _⟩ | ⟨hf, _⟩
      · have e : assignLoop (o :: rest) (m, used) =
            assignLoop rest (setPosition m o (midline + spacing * (i0 : Int)),
              used.set i0 true) := by
          simp only [assignLoop, hm, hf]
        rw [e]
        apply ih _ hrest
        refine ⟨by simp only [List.length_set]; exact hinv.1, fun i hi => ?_⟩
        have hlen : i0 < used.length := by rw [hinv.1]; exact hi0
        simp only
        rw [getD_set_true _ _ _ hlen, slotUsedBy_setPosition m o i0 i hm, hinv.2 i hi]
        have ho : o ∈ m_overlays := hsub o (List.mem_cons_self _ _)
        simp [ho]
      · have e : assignLoop (o :: rest) (m, used) = assignLoop rest (m, used) := by
          simp only [assignLoop, hm, hf]
        rw [e]
        exact ih _ hrest hinv

theorem markUsed_flagsAgree (m : Nat → Option Int) (m_overlays : List Nat) :
    FlagsAgree m_overlays
      (m, markUsed m m_overlays (List.replicate max_overlays false)) := by
  have h := markUsed_spec m m_overlays (List.replicate max_overlays false) (by simp)
  refine ⟨h.1, fun i hi => ?_⟩
  simp only
  rw [h.2 i hi]
  have : (List.replicate max_overlays false).getD i false = false := by
    simp [List.getD_eq_getElem?_getD, List.getElem?_replicate, hi]
  rw [this, Bool.false_or]

theorem readLoop_keeps (l : List Nat) :
    ∀ (m : Nat → Option Int) (k : Nat) (p : Int), m k = some p → readLoop l m k = some p := by
  induction l with
  | nil => intro m k p h; exact h
  | cons o rest ih =>
    intro m k p h
    cases hm : m o with
    | some q =>
      have e : readLoop (o :: rest) m = readLoop rest m := by simp only [readLoop, hm]
      rw [e]
      exact ih m k p h
    | none =>
      have e : readLoop (o :: rest) m = readLoop rest (setPosition m o 0) := by
        simp only [readLoop, hm]
      rw [e]
      apply ih
      have hk : k ≠ o := by
        intro hko
        rw [hko, hm] at h
        exact Option.noConfusion h
      simp only [setPosition, hk, if_false]
      exact h

theorem RenderDecodeOverlays_keeps (m_overlays : List Nat) (m : Nat → Option Int) (k : Nat)
    (p : Int) (h : m k = some p) : RenderDecodeOverlays m_overlays m k = some p :=
  readLoop_keeps _ _ k p (assignLoop_keeps _ _ k p h)

end WaveformArea

namespace WaveformArea

open RenderDecodeOverlays

/-- C11 (as stated, refuted): with eleven current overlays and an empty map, the eleventh
overlay has no entry before the frame and is not given a position `15 + 30*i` with `i` in
`0..9`: the slot loops leave it without an entry and the drawing loop then stores 0. -/
theorem eleventh_overlay_gets_no_slot :
    (10 ∈ List.range 11) ∧ noPositions 10 = none ∧
    assignPositions (List.range 11) noPositions 10 = none ∧
    RenderDecodeOverlays (List.range 11) noPositions 10 = some 0 ∧
    ¬ ∃ i : Nat, i < 10 ∧
      RenderDecodeOverlays (List.range 11) noPositions 10 = some (15 + 30 * (i : Int)) := by
  decide

/-- C11 (amended): in `RenderDecodeOverlays` every current overlay `o` that has no entry in
`m_overlayPositions` is given, when some slot in `0..9` is not used by another current overlay
at the time the assignment loop reaches `o`, the position `15 + 30*i` where `i` is the lowest
such slot. -/
theorem RenderDecodeOverlays_lowest_free_slot (m : Nat → Option Int) (pre post : List Nat)
    (o i : Nat) (hnew : m o = none) (hfirst : o ∉ pre) (hi : i < max_overlays)
    (hfree : slotUsedBy (positionsWhenReached (pre ++ o :: post) pre m)
      (pre ++ o :: post) i = false)
    (hlow : ∀ k, k < i →
      slotUsedBy (positionsWhenReached (pre ++ o :: post) pre m) (pre ++ o :: post) k = true) :
    RenderDecodeOverlays (pre ++ o :: post) m o = some (15 + 30 * (i : Int)) := by
  have hsub : ∀ a, a ∈ pre → a ∈ pre ++ o :: post := fun a ha => List.mem_append_left _ ha
  have hinv := assignLoop_flagsAgree (pre ++ o :: post) pre _ hsub
    (markUsed_flagsAgree m (pre ++ o :: post))
  have hnone : (assignLoop pre
      (m, markUsed m (pre ++ o :: post) (List.replicate max_overlays false))).1 o = none := by
    rw [assignLoop_untouched pre _ o hfirst]
    exact hnew
  have hsplit : assignPositions (pre ++ o :: post) m =
      (assignLoop (o :: post) (assignLoop pre
        (m, markUsed m (pre ++ o :: post) (List.replicate max_overlays false)))).1 := by
    unfold assignPositions
    rw [assignLoop_append]
  have hfree2 : slotUsedBy (assignLoop pre
      (m, markUsed m (pre ++ o :: post) (List.replicate max_overlays false))).1
      (pre ++ o :: post) i = false := hfree
  have hlow2 : ∀ k, k < i → slotUsedBy (assignLoop pre
      (m, markUsed m (pre ++ o :: post) (List.replicate max_overlays false))).1
      (pre ++ o :: post) k = true := hlow
  generalize assignLoop pre
    (m, markUsed m (pre ++ o :: post) (List.replicate max_overlays false)) = st1
    at hinv hnone hsplit hfree2 hlow2
  obtain ⟨m1, used1⟩ := st1
  simp only at hnone hfree2 hlow2
  have hfound : (List.range max_overlays).find? (fun i => !used1.getD i false) = some i := by
    rcases firstUnused_spec used1 with ⟨i0, hf, hi0, hclear, hset⟩ | ⟨_, hall⟩
    · rcases Nat.lt_trichotomy i0 i with hlt | heq | hgt
      · have h1 := hinv.2 i0 hi0
        simp only at h1
        rw [hlow2 i0 hlt, hclear] at h1
        exact absurd h1 (by decide)
      · rw [hf, heq]
      · have h1 := hinv.2 i hi
        simp only at h1
        rw [hfree2, hset i hgt] at h1
        exact absurd h1 (by decide)
    · have h1 := hinv.2 i hi
      simp only at h1
      rw [hfree2, hall i hi] at h1
      exact absurd h1 (by decide)
  have hstep : assignLoop (o :: post) (m1, used1) =
      assignLoop post (setPosition m1 o (midline + spacing * (i : Int)), used1.set i true) := by
    simp only [assignLoop, hnone, hfound]
  have hval : midline + spacing * (i : Int) = 15 + 30 * (i : Int) := by
    have hm : midline = 15 := by decide
    have hs : spacing = 30 := by decide
    rw [hm, hs]
  unfold RenderDecodeOverlays
  apply readLoop_keeps
  rw [hsplit, hstep]
  apply assignLoop_keeps
  simp only [setPosition, if_true]
  rw [hval]

/-- C11 (amended), instance, the scenario of the specification: two overlays 1 and 2 added in
sequence get slots 0 and 1 (positions 15 and 45); after overlay 1 has left `m_overlays` and
overlay 3 is added, overlay 3 gets slot 0 (position 15). -/
theorem RenderDecodeOverlays_lowest_free_slot_witness :
    RenderDecodeOverlays [1, 2] noPositions 1 = some (15 + 30 * ((0 : Nat) : Int)) ∧
    RenderDecodeOverlays [1, 2] noPositions 2 = some (15 + 30 * ((1 : Nat) : Int)) ∧
    RenderDecodeOverlays [2, 3] (RenderDecodeOverlays [1, 2] noPositions) 3 =
      some (15 + 30 * ((0 : Nat) : Int)) :=
  ⟨RenderDecodeOverlays_lowest_free_slot noPositions [] [2] 1 0 rfl (by decide) (by decide)
      (by decide) (by decide),
    RenderDecodeOverlays_lowest_free_slot noPositions [1] [] 2 1 rfl (by decide) (by decide)
      (by decide) (by decide),
    RenderDecodeOverlays_lowest_free_slot (RenderDecodeOverlays [1, 2] noPositions) [2] [] 3 0
      (by decide) (by decide) (by decide) (by decide) (by decide)⟩

/-- C12: `RenderDecodeOverlays` never changes the position of an overlay that already has an
entry in `m_overlayPositions`: over any sequence of frames, whatever `m_overlays` is in each of
them, an overlay with position `p` in the map before the first frame has position `p` after
the last. -/
theorem renderFrames_keeps_position (frames : List (List Nat)) (m : Nat → Option Int) (o : Nat)
    (p : Int) (h : m o = some p) : renderFrames frames m o = some p := by
  induction frames generalizing m with
  | nil => exact h
  | cons m_overlays rest ih =>
    exact ih (RenderDecodeOverlays m_overlays m) (RenderDecodeOverlays_keeps m_overlays m o p h)

/-- C12, instance: overlay 2, stored at 45 by the first frame, is still at 45 after three more
frames in which overlays come and go. -/
theorem renderFrames_keeps_position_witness :
    renderFrames [[2, 3], [3, 2, 4], [2]] (RenderDecodeOverlays [1, 2] noPositions) 2 =
      some 45 :=
  renderFrames_keeps_position [[2, 3], [3, 2, 4], [2]]
    (RenderDecodeOverlays [1, 2] noPositions) 2 45 (by decide)

end WaveformArea

namespace WaveformArea

/-! ## RenderTrace: number of workgroups -/

theorem lor_one_of_odd (k : Nat) :
    Int.lor ((2 * k + 1 : Nat) : Int) (2 - 1) = ((2 * k + 1 : Nat) : Int) := by
  have h1 : ((2 : Int) - 1) = ((1 : Nat) : Int) := by norm_num
  rw [h1]
  show (((2 * k + 1) ||| 1 : Nat) : Int) = _
  congr 1
  apply Nat.eq_of_testBit_eq
  intro i
  rw [Nat.testBit_or]
  cases i with
  | zero =>
    have hodd : (2 * k + 1) % 2 = 1 := by omega
    simp [Nat.testBit_zero, hodd]
  | succ n => simp [Nat.testBit_one_eq_true_iff_self_eq_zero]

/-- C13: for every plot width `m_plotRight >= 0`, `RenderTrace` dispatches exactly
`ceil(m_plotRight / 2)` workgroups: on an odd width `numCols |= 1; numCols++` followed by the
division by 2, and on an even width the division alone, equal the ceiling division. -/
theorem RenderTrace_numGroups_eq_ceil (w : WaveformArea) (h : 0 ≤ w.m_plotRight) :
    RenderTrace_numGroups w = ⌈(w.m_plotRight : ℚ) / 2⌉ := by
  obtain ⟨n, hn⟩ := Int.eq_ofNat_of_zero_le h
  unfold RenderTrace_numGroups
  rw [hn]
  rcases Nat.even_or_odd' n with ⟨k, hk | hk⟩
  · subst hk
    have hmod : Int.tmod ((2 * k : Nat) : Int) 2 = 0 := by
      rw [Int.tmod_eq_emod (by omega) (by decide)]
      omega
    simp only [hmod, ne_eq, not_true_eq_false, if_false]
    rw [Int.tdiv_eq_ediv (by omega) (by decide)]
    symm
    rw [Int.ceil_eq_iff]
    push_cast
    constructor
    · have : (((2 * (k : Int)) / 2 : Int) : ℚ) = (k : ℚ) := by
        have : (2 * (k : Int)) / 2 = (k : Int) := by omega
        rw [this]; norm_cast
      rw [this]; linarith
    · have : (((2 * (k : Int)) / 2 : Int) : ℚ) = (k : ℚ) := by
        have : (2 * (k : Int)) / 2 = (k : Int) := by omega
        rw [this]; norm_cast
      rw [this]; linarith
  · subst hk
    have hmod : Int.tmod ((2 * k + 1 : Nat) : Int) 2 = 1 := by
      rw [Int.tmod_eq_emod (by omega) (by decide)]
      omega
    have hne : (0 : Int) ≠ 1 := by decide
    simp only [hmod, ne_eq, hne, not_false_eq_true, if_true]
    rw [lor_one_of_odd, Int.tdiv_eq_ediv (by omega) (by decide)]
    have hdiv : (((2 * k + 1 : Nat) : Int) + 1) / 2 = (k : Int) + 1 := by omega
    rw [hdiv]
    symm
    rw [Int.ceil_eq_iff]
    push_cast
    constructor <;> linarith

/-- C13, instance: a plot 7 pixels wide takes 4 workgroups. -/
theorem RenderTrace_numGroups_eq_ceil_witness :
    RenderTrace_numGroups { scenarioArea with m_plotRight := 7 } = ⌈((7 : Int) : ℚ) / 2⌉ :=
  RenderTrace_numGroups_eq_ceil { scenarioArea with m_plotRight := 7 } (by decide)

end WaveformArea

namespace WaveformArea

/-! ## Decibel axis -/

/-- C14 (as stated, refuted): with height 100 and padding 2, `DbToYPosition(-70)` is 98, not
the edge `y = m_padding = 2` that `RenderGrid` names `ybot`. -/
theorem DbToYPosition_floor_not_ybot :
    DbToYPosition scenarioArea (-70) = 98 ∧ RenderGrid_ybot scenarioArea = 2 ∧
    DbToYPosition scenarioArea (-70) ≠ RenderGrid_ybot scenarioArea := by
  decide!

/-- C14 (amended): for every height and padding, `DbToYPosition` maps the plot floor of -70 dB
to `y = m_height - m_padding`, the value `RenderGrid` names `ytop`, and maps 0 dB to
`y = m_padding`, the value `RenderGrid` names `ybot`. -/
theorem DbToYPosition_edges (w : WaveformArea) :
    DbToYPosition w (-70) = RenderGrid_ytop w ∧ DbToYPosition w 0 = RenderGrid_ybot w := by
  unfold DbToYPosition RenderGrid_ytop RenderGrid_ybot
  constructor
  · push_cast
    ring
  · simp

/-! ## Compositing order -/

end WaveformArea

namespace WaveformArea

/-! ## Vertices of PrepareGeometry and the coordinate mapping -/

theorem vertexLoop_getElem? (xscale m_xoff ppv offset : ℚ) (m_height : Int) :
    ∀ (samples : List AnalogSample) (j : Nat) (s : AnalogSample),
      samples[j]? = some s →
      (vertexLoop xscale m_xoff ppv offset m_height samples)[j * 2]? =
        some ((s.m_offset : ℚ) * xscale + m_xoff) ∧
      (vertexLoop xscale m_xoff ppv offset m_height samples)[j * 2 + 1]? =
        some (ppv * (s.m_sample + offset) + ((Int.tdiv m_height 2 : Int) : ℚ)) := by
  intro samples
  induction samples with
  | nil => intro j s h; simp at h
  | cons a rest ih =>
    intro j s h
    cases j with
    | zero =>
      simp only [List.getElem?_cons_zero, Option.some.injEq] at h
      subst h
      simp [vertexLoop]
    | succ j =>
      simp only [List.getElem?_cons_succ] at h
      have h2 := ih j s h
      have e1 : (j + 1) * 2 = j * 2 + 1 + 1 := by ring
      rw [e1]
      simp only [vertexLoop, List.getElem?_cons_succ]
      exact h2

/-- The trace buffer `PrepareGeometry` leaves for an analog capture with a sample. -/
theorem PrepareGeometry_traceBuffer (w : WaveformArea) (data : AnalogCapture)
    (hdata : w.m_channel.data = .analog data) (hcount : 1 ≤ data.m_samples.length) :
    (PrepareGeometry w).2.m_traceBuffer =
      vertexLoop ((data.m_timescale : ℚ) * w.m_group.m_pixelsPerXUnit)
        ((data.m_triggerPhase - (w.m_group.m_xAxisOffset : ℚ)) * w.m_group.m_pixelsPerXUnit)
        w.m_pixelsPerVolt w.m_channel.offset w.m_height data.m_samples := by
  have hne : ¬ data.m_samples.length = 0 := by omega
  simp only [PrepareGeometry, hdata, hne, if_false]

/-- C17 (as stated, refuted): for a sample of a quarter volt at 100 pixels per volt, offset 0
and height 100, the vertex y computed by `PrepareGeometry` is 75 while
`VoltsToYPosition(1/4)` is 25. -/
theorem vertex_y_ne_VoltsToYPosition :
    (PrepareGeometry quarterVoltArea).2.m_traceBuffer[0 * 2 + 1]? = some 75 ∧
    VoltsToYPosition quarterVoltArea (1 / 4) = 25 ∧
    (PrepareGeometry quarterVoltArea).2.m_traceBuffer[0 * 2 + 1]? ≠
      some (VoltsToYPosition quarterVoltArea (1 / 4)) := by
  decide!

/-- C17 (amended): for every sample value `v`, channel offset, `m_pixelsPerVolt` and plot
height, the vertex y computed by `PrepareGeometry` is the mirror image of
`VoltsToYPosition(v)` about the midline `m_height/2`: vertex y `= 2*(m_height/2) -
VoltsToYPosition(v)`; the two are equal exactly when `m_pixelsPerVolt * (v + offset) = 0`. -/
theorem vertex_y_mirrors_VoltsToYPosition (w : WaveformArea) (data : AnalogCapture)
    (hdata : w.m_channel.data = .analog data) (j : Nat) (s : AnalogSample)
    (hs : data.m_samples[j]? = some s) :
    (PrepareGeometry w).2.m_traceBuffer[j * 2 + 1]? =
      some (2 * ((Int.tdiv w.m_height 2 : Int) : ℚ) - VoltsToYPosition w s.m_sample) ∧
    ((PrepareGeometry w).2.m_traceBuffer[j * 2 + 1]? = some (VoltsToYPosition w s.m_sample) ↔
      w.m_pixelsPerVolt * (s.m_sample + w.m_channel.offset) = 0) := by
  have hcount : 1 ≤ data.m_samples.length := by
    have := (List.getElem?_eq_some.mp hs).1
    omega
  rw [PrepareGeometry_traceBuffer w data hdata hcount,
    (vertexLoop_getElem? _ _ _ _ _ data.m_samples j s hs).2]
  unfold VoltsToYPosition VoltsToPixels
  constructor
  · congr 1
    ring
  · rw [Option.some.injEq]
    constructor
    · intro h
      linarith
    · intro h
      linarith

/-- C17 (amended), instance: the quarter-volt sample, vertex y 75 against 25. -/
theorem vertex_y_mirrors_VoltsToYPosition_witness :
    (PrepareGeometry quarterVoltArea).2.m_traceBuffer[0 * 2 + 1]? =
      some (2 * ((Int.tdiv quarterVoltArea.m_height 2 : Int) : ℚ) -
        VoltsToYPosition quarterVoltArea (1 / 4)) ∧
    ((PrepareGeometry quarterVoltArea).2.m_traceBuffer[0 * 2 + 1]? =
        some (VoltsToYPosition quarterVoltArea (1 / 4)) ↔
      quarterVoltArea.m_pixelsPerVolt * (1 / 4 + quarterVoltArea.m_channel.offset) = 0) :=
  vertex_y_mirrors_VoltsToYPosition quarterVoltArea
    { m_timescale := 1, m_triggerPhase := 0,
      m_samples := [⟨0, 10, 1 / 4⟩, ⟨10, 10, 1 / 4⟩] } rfl 0 ⟨0, 10, 1 / 4⟩ rfl

end WaveformArea

namespace WaveformArea

/-! ## Colour correction and the raster image of the frame -/

end WaveformArea

namespace WaveformArea

/-! ## Decode rows -/

theorem mem_textLoop (w : WaveformArea) (textright : Int) (data : DecodeCapture) :
    ∀ (samples : List DecodeSample) (i0 k : Nat) (a b : ℚ),
      (k, a, b) ∈ textLoop w textright data samples i0 ↔
        i0 ≤ k ∧ ∃ s, samples[k - i0]? = some s ∧ a = sampleXs w data s ∧
          b = sampleXe w data s ∧
          culled w textright (sampleXs w data s) (sampleXe w data s) = false := by
  intro samples
  induction samples with
  | nil =>
    intro i0 k a b
    simp [textLoop]
  | cons s rest ih =>
    intro i0 k a b
    have hrest := ih (i0 + 1) k a b
    by_cases hc : culled w textright (sampleXs w data s) (sampleXe w data s) = true
    · have e : textLoop w textright data (s :: rest) i0 =
          textLoop w textright data rest (i0 + 1) := by
        simp only [textLoop, hc, if_true]
      rw [e, hrest]
      constructor
      · rintro ⟨h1, s2, h2, h3, h4, h5⟩
        refine ⟨by omega, s2, ?_, h3, h4, h5⟩
        have e2 : k - i0 = (k - (i0 + 1)) + 1 := by omega
        rw [e2, List.getElem?_cons_succ]
        exact h2
      · rintro ⟨h1, s2, h2, h3, h4, h5⟩
        rcases Nat.eq_or_lt_of_le h1 with heq | hlt
        · subst heq
          simp only [Nat.sub_self, List.getElem?_cons_zero, Option.some.injEq] at h2
          subst h2
          rw [hc] at h5
          exact absurd h5 (by decide)
        · refine ⟨by omega, s2, ?_, h3, h4, h5⟩
          have e2 : k - i0 = (k - (i0 + 1)) + 1 := by omega
          rw [e2, List.getElem?_cons_succ] at h2
          exact h2
    · have hc2 : culled w textright (sampleXs w data s) (sampleXe w data s) = false := by
        simpa using hc
      have e : textLoop w textright data (s :: rest) i0 =
          (i0, sampleXs w data s, sampleXe w data s) ::
            textLoop w textright data rest (i0 + 1) := by
        simp only [textLoop, hc2, Bool.false_eq_true, if_false]
      rw [e, List.mem_cons, hrest]
      constructor
      · rintro (h | ⟨h1, s2, h2, h3, h4, h5⟩)
        · simp only [Prod.mk.injEq] at h
          obtain ⟨hk, ha, hb⟩ := h
          subst hk
          exact ⟨le_refl _, s, by simp, ha, hb, hc2⟩
        · refine ⟨by omega, s2, ?_, h3, h4, h5⟩
          have e2 : k - i0 = (k - (i0 + 1)) + 1 := by omega
          rw [e2, List.getElem?_cons_succ]
          exact h2
      · rintro ⟨h1, s2, h2, h3, h4, h5⟩
        rcases Nat.eq_or_lt_of_le h1 with heq | hlt
        · subst heq
          simp only [Nat.sub_self, List.getElem?_cons_zero, Option.some.injEq] at h2
          subst h2
          left
          rw [h3, h4]
        · right
          refine ⟨by omega, s2, ?_, h3, h4, h5⟩
          have e2 : k - i0 = (k - (i0 + 1)) + 1 := by omega
          rw [e2, List.getElem?_cons_succ] at h2
          exact h2

/-- C19: in `RenderDecodeOverlays`, for every annotation sample `i` with screen extent
`[xs, xe]` (`xs <= xe`) and every `textright <= m_plotRight`, the sample is rendered by the
text row if and only if `[xs, xe]` intersects the visible span `[textright, m_plotRight]`; it
is skipped exactly when `xe < textright` or `xs > m_plotRight`. -/
theorem textRow_renders_iff_intersects (w : WaveformArea) (textright : Int)
    (data : DecodeCapture) (i : Nat) (s : DecodeSample)
    (hs : data.m_samples[i]? = some s)
    (hextent : sampleXs w data s ≤ sampleXe w data s)
    (hspan : textright ≤ w.m_plotRight) :
    ((i, sampleXs w data s, sampleXe w data s) ∈ textLoop w textright data data.m_samples 0 ↔
      ∃ x : ℚ, sampleXs w data s ≤ x ∧ x ≤ sampleXe w data s ∧
        (textright : ℚ) ≤ x ∧ x ≤ (w.m_plotRight : ℚ)) ∧
    ((i, sampleXs w data s, sampleXe w data s) ∉ textLoop w textright data data.m_samples 0 ↔
      sampleXe w data s < (textright : ℚ) ∨ sampleXs w data s > (w.m_plotRight : ℚ)) := by
  have hspanq : (textright : ℚ) ≤ (w.m_plotRight : ℚ) := by exact_mod_cast hspan
  have hmem : (i, sampleXs w data s, sampleXe w data s) ∈
      textLoop w textright data data.m_samples 0 ↔
      culled w textright (sampleXs w data s) (sampleXe w data s) = false := by
    rw [mem_textLoop]
    constructor
    · rintro ⟨_, s2, h2, _, _, h5⟩
      rw [Nat.sub_zero, hs] at h2
      cases h2
      exact h5
    · intro h
      exact ⟨Nat.zero_le _, s, by rw [Nat.sub_zero]; exact hs, rfl, rfl, h⟩
  have hcull : culled w textright (sampleXs w data s) (sampleXe w data s) = false ↔
      ¬ (sampleXe w data s < (textright : ℚ) ∨ sampleXs w data s > (w.m_plotRight : ℚ)) := by
    unfold culled
    simp only [Bool.or_eq_false_iff, decide_eq_false_iff_not, not_or]
  constructor
  · rw [hmem, hcull]
    constructor
    · intro h
      rw [not_or, not_lt, not_lt] at h
      by_cases hx : sampleXs w data s ≤ (textright : ℚ)
      · exact ⟨(textright : ℚ), hx, h.1, le_refl _, hspanq⟩
      · exact ⟨sampleXs w data s, le_refl _, hextent, le_of_lt (not_le.mp hx), h.2⟩
    · rintro ⟨x, h1, h2, h3, h4⟩
      rw [not_or, not_lt, not_lt]
      exact ⟨le_trans h3 h2, le_trans h1 h4⟩
  · rw [hmem, hcull]
    constructor
    · intro h
      by_contra hcon
      exact h hcon
    · intro h hcon
      exact hcon h

/-- C19, instance: sample 2 of the decoded capture (extent 30 to 40) with the label ending at
pixel 15 and the plot at pixel 50. -/
theorem textRow_renders_iff_intersects_witness :
    ((2, sampleXs scenarioArea decodeCapture ⟨30, 10, true⟩,
        sampleXe scenarioArea decodeCapture ⟨30, 10, true⟩) ∈
        textLoop scenarioArea 15 decodeCapture decodeCapture.m_samples 0 ↔
      ∃ x : ℚ, sampleXs scenarioArea decodeCapture ⟨30, 10, true⟩ ≤ x ∧
        x ≤ sampleXe scenarioArea decodeCapture ⟨30, 10, true⟩ ∧
        ((15 : Int) : ℚ) ≤ x ∧ x ≤ (scenarioArea.m_plotRight : ℚ)) ∧
    ((2, sampleXs scenarioArea decodeCapture ⟨30, 10, true⟩,
        sampleXe scenarioArea decodeCapture ⟨30, 10, true⟩) ∉
        textLoop scenarioArea 15 decodeCapture decodeCapture.m_samples 0 ↔
      sampleXe scenarioArea decodeCapture ⟨30, 10, true⟩ < ((15 : Int) : ℚ) ∨
        sampleXs scenarioArea decodeCapture ⟨30, 10, true⟩ > (scenarioArea.m_plotRight : ℚ)) :=
  textRow_renders_iff_intersects scenarioArea 15 decodeCapture 2 ⟨30, 10, true⟩ rfl
    (by decide!) (by decide)

end WaveformArea

namespace WaveformArea

theorem digitalLoop_eq_penLoop (w : WaveformArea) (textright : Int) (ytop ybot : ℚ)
    (data : DecodeCapture) :
    ∀ (samples : List DecodeSample) (first : Bool) (last_end : ℚ),
      digitalLoop w textright ytop ybot data samples first last_end =
        penLoop (drawnSamples w textright ytop ybot data samples) first last_end := by
  intro samples
  induction samples with
  | nil => intro first last_end; rfl
  | cons s rest ih =>
    intro first last_end
    by_cases hc : culled w textright (sampleXs w data s) (sampleXe w data s) = true
    · simp only [digitalLoop, drawnSamples, hc, if_true]
      exact ih first last_end
    · have hc2 : culled w textright (sampleXs w data s) (sampleXe w data s) = false := by
        simpa using hc
      simp only [digitalLoop, drawnSamples, hc2, Bool.false_eq_true, if_false, penLoop]
      rw [ih]

theorem penLoop_length : ∀ (d : List DrawnSample) (first : Bool) (last_end : ℚ),
    (penLoop d first last_end).length = 2 * d.length := by
  intro d
  induction d with
  | nil => intro first last_end; rfl
  | cons a rest ih =>
    intro first last_end
    simp only [penLoop, List.length_cons, ih]
    ring

theorem penLoop_commands : ∀ (d : List DrawnSample) (first : Bool) (last_end : ℚ) (k : Nat)
    (a : DrawnSample), d[k]? = some a →
      (penLoop d first last_end)[2 * k + 1]? = some (PathCmd.line_to a.xe a.y) ∧
      (k = 0 → (penLoop d first last_end)[2 * k]? =
        some (if (a.xs - last_end > 2 ∨ first = true) then PathCmd.move_to a.xs a.y
          else PathCmd.line_to a.xs a.y)) ∧
      (∀ b : DrawnSample, 1 ≤ k → d[k - 1]? = some b →
        (penLoop d first last_end)[2 * k]? =
          some (if a.xs - b.xe > 2 then PathCmd.move_to a.xs a.y
            else PathCmd.line_to a.xs a.y)) := by
  intro d
  induction d with
  | nil => intro first last_end k a h; simp at h
  | cons a0 rest ih =>
    intro first last_end k a h
    cases k with
    | zero =>
      simp only [List.getElem?_cons_zero, Option.some.injEq] at h
      subst h
      refine ⟨by simp [penLoop], fun _ => ?_, fun b hb => by omega⟩
      by_cases hgap : a0.xs - last_end > 2
      · simp [penLoop, hgap]
      · cases first <;> simp [penLoop, hgap]
    | succ k =>
      simp only [List.getElem?_cons_succ] at h
      obtain ⟨h1, h2, h3⟩ := ih false a0.xe k a h
      have e1 : 2 * (k + 1) + 1 = (2 * k + 1) + 1 + 1 := by ring
      have e2 : 2 * (k + 1) = (2 * k) + 1 + 1 := by ring
      refine ⟨?_, fun hk => by omega, fun b _ hb => ?_⟩
      · rw [e1]
        simp only [penLoop, List.getElem?_cons_succ]
        exact h1
      · rw [e2]
        simp only [penLoop, List.getElem?_cons_succ]
        cases k with
        | zero =>
          simp only [Nat.zero_add, Nat.sub_self, List.getElem?_cons_zero,
            Option.some.injEq] at hb
          subst hb
          have := h2 rfl
          simpa using this
        | succ k =>
          simp only [Nat.add_sub_cancel, List.getElem?_cons_succ] at hb
          exact h3 b (by omega) (by simpa using hb)

/-- C20: in the digital row, for every sequence of samples, each drawn sample gets two
commands, one at its start and a `line_to` at its clamped end. The command at the start is a
pen-up (`move_to`) exactly when the sample is the first drawn sample or its start `xs` lies
more than 2 pixels to the right of the end, clamped to `m_plotRight`, of the previously drawn
sample; otherwise it is a `line_to`, which connects the two samples. -/
theorem digitalRow_penUp_iff_gap (w : WaveformArea) (textright : Int) (ytop ybot : ℚ)
    (data : DecodeCapture) :
    (digitalRow w textright ytop ybot data).length =
      2 * (drawnSamples w textright ytop ybot data data.m_samples).length ∧
    ∀ (k : Nat) (a : DrawnSample),
      (drawnSamples w textright ytop ybot data data.m_samples)[k]? = some a →
      (digitalRow w textright ytop ybot data)[2 * k + 1]? = some (PathCmd.line_to a.xe a.y) ∧
      (k = 0 →
        (digitalRow w textright ytop ybot data)[2 * k]? = some (PathCmd.move_to a.xs a.y)) ∧
      (∀ b : DrawnSample, 1 ≤ k →
        (drawnSamples w textright ytop ybot data data.m_samples)[k - 1]? = some b →
        (digitalRow w textright ytop ybot data)[2 * k]? =
          some (if a.xs - b.xe > 2 then PathCmd.move_to a.xs a.y
            else PathCmd.line_to a.xs a.y)) := by
  unfold digitalRow
  rw [digitalLoop_eq_penLoop]
  refine ⟨penLoop_length _ _ _, fun k a h => ?_⟩
  obtain ⟨h1, h2, h3⟩ := penLoop_commands _ true (-100) k a h
  refine ⟨h1, fun hk => ?_, h3⟩
  have := h2 hk
  simpa using this

end WaveformArea

namespace WaveformArea

/-- The digital row of the decoded capture in the scenario area, the label ending at pixel 5:
four samples are drawn, the last with its end 141 clamped to 50. -/
theorem digitalRow_example :
    digitalRow scenarioArea 5 25 5 decodeCapture =
      [PathCmd.move_to 0 25, PathCmd.line_to 10 25, PathCmd.line_to 10 5, PathCmd.line_to 20 5,
        PathCmd.move_to 30 25, PathCmd.line_to 40 25, PathCmd.line_to 41 5,
        PathCmd.line_to 50 5] := by
  decide!

/-- C20, instance: in the decoded capture the third drawn sample starts at 30, 10 pixels after
the second ends at 20, and gets the pen-up test `30 - 20 > 2`; the fourth starts at 41, 1 pixel
after the third ends at 40, and gets the test `41 - 40 > 2`. -/
theorem digitalRow_penUp_iff_gap_witness :
    (digitalRow scenarioArea 5 25 5 decodeCapture)[2 * 2]? =
        some (if (30 : ℚ) - 20 > 2 then PathCmd.move_to 30 25 else PathCmd.line_to 30 25) ∧
    (digitalRow scenarioArea 5 25 5 decodeCapture)[2 * 3]? =
        some (if (41 : ℚ) - 40 > 2 then PathCmd.move_to 41 5 else PathCmd.line_to 41 5) :=
  ⟨((digitalRow_penUp_iff_gap scenarioArea 5 25 5 decodeCapture).2 2 ⟨30, 40, 25⟩
      (by decide!)).2.2 ⟨10, 20, 5⟩ (by decide) (by decide!),
    ((digitalRow_penUp_iff_gap scenarioArea 5 25 5 decodeCapture).2 3 ⟨41, 50, 5⟩
      (by decide!)).2.2 ⟨30, 40, 25⟩ (by decide) (by decide!)⟩

end WaveformArea

namespace WaveformArea

/-! ## RenderGrid -/

/-- C21 (the code at the failing input): on a spectrum (`IsFFT()` true, height 74, padding 2)
the grid map holds the key 0 dB at `y = 2`, but `RenderGrid` strokes only the six lines of
-60 dB to -10 dB, all with alpha 1/4: the 0 dB line is skipped by the dimmed loop and no solid
line is stroked. On the linear axis the first line stroked is the solid line of 0 V. -/
theorem RenderGrid_spectrum_has_no_zero_line :
    (0, 2) ∈ fftGridmap spectrumArea ∧
    (RenderGrid true 8 10 1 0 spectrumArea).map (fun r => r.2) =
      some [{ y := 62, alpha := 1 / 4 }, { y := 52, alpha := 1 / 4 }, { y := 42, alpha := 1 / 4 },
        { y := 32, alpha := 1 / 4 }, { y := 22, alpha := 1 / 4 }, { y := 12, alpha := 1 / 4 }] ∧
    (RenderGrid false 8 10 (1 / 4) 3 scenarioArea).map (fun r => r.2) =
      some [{ y := 50, alpha := 1 }, { y := 75, alpha := 1 / 4 }, { y := 25, alpha := 1 / 4 }] := by
  decide!

/-- On the linear axis, whenever the grid loop ends, the zero line is stroked solid at
`VoltsToYPosition(0)` and every other line stroked is dimmed. -/
theorem RenderGrid_linear_zero_line_solid (twidth theight : Int) (selected_step : ℚ)
    (fuel : Nat) (w : WaveformArea) (hw : w.isWaterfall = false) (w1 : WaveformArea)
    (lines : List GridLine)
    (h : RenderGrid false twidth theight selected_step fuel w = some (w1, lines)) :
    ∃ dimmed : List GridLine,
      lines = { y := VoltsToYPosition w 0, alpha := 1 } :: dimmed ∧
      ∀ line, line ∈ dimmed → line.alpha = 1 / 4 := by
  unfold RenderGrid at h
  simp only [hw, Bool.false_eq_true, if_false, Option.map_map, Option.map_eq_some',
    Function.comp] at h
  obtain ⟨r, _, hr⟩ := h
  simp only [Prod.mk.injEq] at hr
  refine ⟨(r.1.filter fun e => decide (e.1 ≠ 0)).map fun e => { y := e.2, alpha := 1 / 4 },
    ?_, ?_⟩
  · rw [← hr.2]
    rfl
  · intro line hline
    rw [List.mem_map] at hline
    obtain ⟨e, _, he⟩ := hline
    rw [← he]

/-! ### Single-precision rounding -/

theorem roundHalfEven_le (m : ℚ) (M : Int) (h : m ≤ (M : ℚ)) : roundHalfEven m ≤ M := by
  unfold roundHalfEven
  have hf : ⌊m⌋ ≤ M := Int.floor_le_floor h |>.trans (by simp)
  rcases lt_or_eq_of_le h with hlt | heq
  · have hf1 : ⌊m⌋ < M := by
      rw [Int.floor_lt]; exact hlt
    simp only
    split_ifs <;> omega
  · subst heq
    simp

theorem le_roundHalfEven (m : ℚ) (N : Int) (h : (N : ℚ) ≤ m) : N ≤ roundHalfEven m := by
  unfold roundHalfEven
  have hf : N ≤ ⌊m⌋ := Int.le_floor.mpr h
  simp only
  split_ifs <;> omega

theorem roundHalfEven_even_half (m : ℚ) (N : Int) (heven : N % 2 = 0) (h1 : (N : ℚ) ≤ m)
    (h2 : m ≤ (N : ℚ) + 1 / 2) : roundHalfEven m = N := by
  unfold roundHalfEven
  have hf : ⌊m⌋ = N := by
    rw [Int.floor_eq_iff]
    constructor
    · exact h1
    · linarith
  simp only [hf]
  have hr : ¬ (1 / 2 < m - (N : ℚ)) := by
    intro hc; linarith
  rw [if_neg hr, if_pos heven]
  simp

theorem f32ExponentFrom_spec (fuel : Nat) (e : Int) (q : ℚ) :
    e ≤ f32ExponentFrom fuel e q ∧
    (f32ExponentFrom fuel e q = e ∨ (2 : ℚ) ^ f32ExponentFrom fuel e q ≤ q) ∧
    (q < (2 : ℚ) ^ (e + fuel + 1) → q < (2 : ℚ) ^ (f32ExponentFrom fuel e q + 1)) := by
  induction fuel generalizing e with
  | zero => simp [f32ExponentFrom]
  | succ n ih =>
    unfold f32ExponentFrom
    by_cases hq : q < (2 : ℚ) ^ (e + 1)
    · rw [if_pos hq]
      exact ⟨le_refl _, Or.inl rfl, fun _ => hq⟩
    · rw [if_neg hq]
      obtain ⟨h1, h2, h3⟩ := ih (e + 1)
      refine ⟨by omega, ?_, ?_⟩
      · right
        rcases h2 with h2 | h2
        · rw [h2]; exact not_lt.mp hq
        · exact h2
      · intro hlt
        apply h3
        have : e + 1 + (n : Int) + 1 = e + ((n + 1 : Nat) : Int) + 1 := by push_cast; ring
        rw [this]; exact hlt

theorem roundF32_nonneg (q : ℚ) (h : 0 ≤ q) : 0 ≤ roundF32 q := by
  unfold roundF32
  have hulp : (0 : ℚ) < 2 ^ (f32Exponent q - 23) := zpow_pos (by norm_num) _
  have : (0 : Int) ≤ roundHalfEven (q / 2 ^ (f32Exponent q - 23)) :=
    le_roundHalfEven _ 0 (by simpa using div_nonneg h hulp.le)
  simp only
  exact mul_nonneg (by exact_mod_cast this) hulp.le

theorem roundF32_le_two_pow_22 (q : ℚ) (h0 : 0 ≤ q) (h : q ≤ 4194304 + 1 / 4) :
    roundF32 q ≤ 4194304 := by
  obtain ⟨_, h2, h3⟩ := f32ExponentFrom_spec 253 (-126) |q|
  have hE : f32ExponentFrom 253 (-126) |q| = f32Exponent q := rfl
  rw [hE] at h2 h3
  rw [abs_of_nonneg h0] at h2 h3
  have hlt : q < (2 : ℚ) ^ (f32Exponent q + 1) := by
    apply h3
    have : (2 : ℚ) ^ ((-126 : Int) + ((253 : Nat) : Int) + 1) = 2 ^ (128 : Nat) := by
      norm_num
    rw [this]
    calc q ≤ 4194304 + 1 / 4 := h
      _ < 2 ^ (128 : Nat) := by norm_num
  have he : f32Exponent q ≤ 22 := by
    rcases h2 with h2 | h2
    · rw [h2]; norm_num
    · by_contra hc
      push_neg at hc
      have : (2 : ℚ) ^ (23 : Int) ≤ 2 ^ f32Exponent q :=
        zpow_le_zpow_right₀ (by norm_num) (by omega)
      have h23 : (2 : ℚ) ^ (23 : Int) = 8388608 := by norm_num
      linarith
  unfold roundF32
  simp only
  generalize f32Exponent q = e at h2 hlt he
  have hulp : (0 : ℚ) < 2 ^ (e - 23) := zpow_pos (by norm_num) _
  rcases lt_or_le e 22 with h21 | h22
  · have hq22 : q < 4194304 := by
      have : (2 : ℚ) ^ (e + 1) ≤ 2 ^ (22 : Int) :=
        zpow_le_zpow_right₀ (by norm_num) (by omega)
      have h22 : (2 : ℚ) ^ (22 : Int) = 4194304 := by norm_num
      linarith
    have hM : (((2 : Int) ^ (45 - e).toNat : Int) : ℚ) * 2 ^ (e - 23) = 4194304 := by
      have e1 : (((2 : Int) ^ (45 - e).toNat : Int) : ℚ) = (2 : ℚ) ^ (45 - e) := by
        push_cast
        rw [← zpow_natCast]
        congr 1
        omega
      rw [e1, ← zpow_add₀ (by norm_num : (2 : ℚ) ≠ 0)]
      have : 45 - e + (e - 23) = 22 := by ring
      rw [this]; norm_num
    have hm : q / 2 ^ (e - 23) ≤ (((2 : Int) ^ (45 - e).toNat : Int) : ℚ) := by
      rw [div_le_iff₀ hulp, hM]; exact hq22.le
    have hr := roundHalfEven_le _ _ hm
    have hr2 : (roundHalfEven (q / 2 ^ (e - 23)) : ℚ) ≤ (((2 : Int) ^ (45 - e).toNat : Int) : ℚ) := by
      exact_mod_cast hr
    calc (roundHalfEven (q / 2 ^ (e - 23)) : ℚ) * 2 ^ (e - 23)
        ≤ (((2 : Int) ^ (45 - e).toNat : Int) : ℚ) * 2 ^ (e - 23) :=
          mul_le_mul_of_nonneg_right hr2 hulp.le
      _ = 4194304 := hM
  · have he22 : e = 22 := by omega
    subst he22
    have hlow : (4194304 : ℚ) ≤ q := by
      rcases h2 with h2 | h2
      · omega
      · have h22 : (2 : ℚ) ^ (22 : Int) = 4194304 := by norm_num
        linarith
    have hu : (2 : ℚ) ^ ((22 : Int) - 23) = 1 / 2 := by norm_num
    rw [hu]
    have hr : roundHalfEven (q / (1 / 2)) = 8388608 := by
      apply roundHalfEven_even_half _ _ (by norm_num)
      · rw [le_div_iff₀ (by norm_num)]; push_cast; linarith
      · rw [div_le_iff₀ (by norm_num)]; push_cast; linarith
    rw [hr]; norm_num

/-! ### The linear grid loop -/

/-- For a positive vertical scale the test before `break` holds exactly when `dv` exceeds both
`(ytop - m_height/2) / m_pixelsPerVolt + offset` and
`(m_height/2 - ybot) / m_pixelsPerVolt - offset`. -/
theorem gridLoopExit_iff (w : WaveformArea) (dv : ℚ) (hscale : 0 < w.m_pixelsPerVolt) :
    gridLoopExit w dv ↔
      (RenderGrid_ytop w - ((Int.tdiv w.m_height 2 : Int) : ℚ)) / w.m_pixelsPerVolt
          + w.m_channel.offset < dv ∧
      (((Int.tdiv w.m_height 2 : Int) : ℚ) - RenderGrid_ybot w) / w.m_pixelsPerVolt
          - w.m_channel.offset < dv := by
  unfold gridLoopExit VoltsToYPosition VoltsToPixels
  constructor
  · rintro ⟨h1, h2⟩
    constructor
    · have : (RenderGrid_ytop w - ((Int.tdiv w.m_height 2 : Int) : ℚ)) / w.m_pixelsPerVolt <
          dv - w.m_channel.offset := by
        rw [div_lt_iff₀ hscale]; linarith
      linarith
    · have : (((Int.tdiv w.m_height 2 : Int) : ℚ) - RenderGrid_ybot w) / w.m_pixelsPerVolt <
          dv + w.m_channel.offset := by
        rw [div_lt_iff₀ hscale]; linarith
      linarith
  · rintro ⟨h1, h2⟩
    constructor
    · have := (div_lt_iff₀ hscale).mp (by linarith :
        (RenderGrid_ytop w - ((Int.tdiv w.m_height 2 : Int) : ℚ)) / w.m_pixelsPerVolt <
          dv - w.m_channel.offset)
      linarith
    · have := (div_lt_iff₀ hscale).mp (by linarith :
        (((Int.tdiv w.m_height 2 : Int) : ℚ) - RenderGrid_ybot w) / w.m_pixelsPerVolt <
          dv + w.m_channel.offset)
      linarith

/-- The grid loop started at iteration `j`, with `dv = j * step`, ends at the first iteration
`k` whose test holds, provided more than `k - j` iterations are allowed and the multiples of
the step up to `k * step` are single-precision values, so that no addition rounds. -/
theorem linearGridLoop_reaches (w : WaveformArea) (theight : Int) (step : ℚ) (k : Nat)
    (hexact : ∀ j : Nat, j ≤ k → roundF32 ((j : ℚ) * step) = (j : ℚ) * step)
    (hexit : gridLoopExit w ((k : ℚ) * step))
    (hfirst : ∀ j, j < k → ¬ gridLoopExit w ((j : ℚ) * step)) :
    ∀ (fuel j : Nat) (gridmap : List (ℚ × ℚ)), j ≤ k → k - j < fuel →
      ∃ g, linearGridLoop w theight step fuel ((j : ℚ) * step) gridmap =
        some (g, (k : ℚ) * step) := by
  intro fuel
  induction fuel with
  | zero => intro j gridmap _ h; omega
  | succ fuel ih =>
    intro j gridmap hj hfuel
    rcases Nat.eq_or_lt_of_le hj with heq | hlt
    · subst heq
      simp only [linearGridLoop, hexit, if_true]
      exact ⟨_, rfl⟩
    · have hno := hfirst j hlt
      have hsum : (j : ℚ) * step + step = ((j + 1 : Nat) : ℚ) * step := by
        push_cast
        ring
      have hnext : roundF32 ((j : ℚ) * step + step) = ((j + 1 : Nat) : ℚ) * step := by
        rw [hsum]
        exact hexact (j + 1) (by omega)
      simp only [linearGridLoop, hno, if_false, hnext]
      exact ih (j + 1) _ (by omega) (by omega)

/-- For every positive step and positive `m_pixelsPerVolt` there is a first multiple
`k * step` beyond both thresholds of `gridLoopExit_iff`; when the multiples of the step up to
it are single-precision values, so that no addition `dv += step` rounds, the grid loop ends
there, with `dv = k * step`, given more than `k` iterations. -/
theorem linearGridLoop_breaks_while_exact (w : WaveformArea) (theight : Int) (step : ℚ)
    (hstep : 0 < step) (hscale : 0 < w.m_pixelsPerVolt) :
    ∃ k : Nat,
      ((RenderGrid_ytop w - ((Int.tdiv w.m_height 2 : Int) : ℚ)) / w.m_pixelsPerVolt
          + w.m_channel.offset < (k : ℚ) * step ∧
        (((Int.tdiv w.m_height 2 : Int) : ℚ) - RenderGrid_ybot w) / w.m_pixelsPerVolt
          - w.m_channel.offset < (k : ℚ) * step) ∧
      (∀ j : Nat, j < k →
        ¬ ((RenderGrid_ytop w - ((Int.tdiv w.m_height 2 : Int) : ℚ)) / w.m_pixelsPerVolt
            + w.m_channel.offset < (j : ℚ) * step ∧
          (((Int.tdiv w.m_height 2 : Int) : ℚ) - RenderGrid_ybot w) / w.m_pixelsPerVolt
            - w.m_channel.offset < (j : ℚ) * step)) ∧
      ((∀ j : Nat, j ≤ k → roundF32 ((j : ℚ) * step) = (j : ℚ) * step) →
        ∀ fuel, k < fuel →
          ∃ g, linearGridLoop w theight step fuel 0 [] = some (g, (k : ℚ) * step)) := by
  have hex : ∃ n : Nat, gridLoopExit w ((n : ℚ) * step) := by
    obtain ⟨n, hn⟩ := exists_nat_gt
      (max ((RenderGrid_ytop w - ((Int.tdiv w.m_height 2 : Int) : ℚ)) / w.m_pixelsPerVolt
          + w.m_channel.offset)
        ((((Int.tdiv w.m_height 2 : Int) : ℚ) - RenderGrid_ybot w) / w.m_pixelsPerVolt
          - w.m_channel.offset) / step)
    refine ⟨n, ?_⟩
    rw [div_lt_iff₀ hstep, max_lt_iff] at hn
    exact (gridLoopExit_iff w _ hscale).mpr hn
  classical
  refine ⟨Nat.find hex, (gridLoopExit_iff w _ hscale).mp (Nat.find_spec hex),
    fun j hj hc => Nat.find_min hex hj ((gridLoopExit_iff w _ hscale).mpr hc),
    fun hexact fuel hfuel => ?_⟩
  have h := linearGridLoop_reaches w theight step (Nat.find hex) hexact (Nat.find_spec hex)
    (fun j hj => Nat.find_min hex hj) fuel 0 [] (Nat.zero_le _) (by omega)
  simpa using h

/-- The scenario area (100 pixels per volt, height 100, padding 2, offset 0) with a step of a
quarter volt: the thresholds are 0.48 V, no addition rounds, and the loop stops at the third
iteration, `dv = 1/2`. -/
theorem linearGridLoop_scenario :
    roundF32 (1 / 4) = 1 / 4 ∧ roundF32 (1 / 4 + 1 / 4) = 1 / 2 ∧
    linearGridLoop scenarioArea 10 (1 / 4) 3 0 [] =
      some ([(-1 / 4, 75), (0, 50), (1 / 4, 25)], 1 / 2) := by
  decide!

/-- With 100 pixels per volt, height 100, padding 2, a channel offset of 5000000 V and a step
of at most a quarter volt, a loop variable `dv` in `[0, 4194304]` stays there: the test before
`break` fails, and `dv + step` rounds to a value in the same range. So the loop does not reach
the `break`, whatever the number of iterations. -/
theorem linearGridLoop_farOffset_none (w : WaveformArea) (theight : Int) (step : ℚ)
    (hh : w.m_height = 100) (hp : w.m_padding = 2) (hs : w.m_pixelsPerVolt = 100)
    (ho : w.m_channel.offset = 5000000) (hstep : 0 ≤ step ∧ step ≤ 1 / 4) :
    ∀ (fuel : Nat) (dv : ℚ) (gridmap : List (ℚ × ℚ)), 0 ≤ dv → dv ≤ 4194304 →
      linearGridLoop w theight step fuel dv gridmap = none := by
  intro fuel
  induction fuel with
  | zero => intro dv gridmap _ _; rfl
  | succ fuel ih =>
    intro dv gridmap h0 h1
    have hno : ¬ gridLoopExit w dv := by
      rw [gridLoopExit_iff w dv (by rw [hs]; norm_num)]
      intro hc
      have htd : Int.tdiv (100 : Int) 2 = 50 := by decide
      have e : (RenderGrid_ytop w - ((Int.tdiv w.m_height 2 : Int) : ℚ)) / w.m_pixelsPerVolt
          + w.m_channel.offset = 5000000 + 12 / 25 := by
        unfold RenderGrid_ytop
        rw [hh, hp, hs, ho, htd]
        norm_num
      rw [e] at hc
      linarith [hc.1]
    simp only [linearGridLoop, hno, if_false]
    exact ih _ _ (roundF32_nonneg _ (by linarith [hstep.1]))
      (roundF32_le_two_pow_22 _ (by linarith [hstep.1]) (by linarith [hstep.2]))

/-- C22 (the code at the failing input): with a step of a quarter volt, 100 pixels per volt,
height 100, padding 2 and a channel offset of 5000000 V, the linear grid loop of `RenderGrid`
does not reach its `break` in any number of iterations, and `RenderGrid` does not return. The
loop variable `dv` is a single-precision `float`: `4194304 + 0.25` rounds back to `4194304`,
where the `-dv` line is not yet beyond `ytop`. The same holds for every positive step below a
quarter volt. -/
theorem linearGridLoop_never_breaks :
    (0 : ℚ) < 1 / 4 ∧ 0 < farOffsetArea.m_pixelsPerVolt ∧
    roundF32 (1 / 4) = 1 / 4 ∧
    roundF32 (4194304 + 1 / 4) = 4194304 ∧
    ¬ gridLoopExit farOffsetArea 4194304 ∧
    (∀ fuel : Nat, linearGridLoop farOffsetArea 10 (1 / 4) fuel 0 [] = none) ∧
    (∀ fuel : Nat, RenderGrid false 8 10 (1 / 4) fuel farOffsetArea = none) ∧
    ∀ (step : ℚ) (fuel : Nat), 0 < step ∧ step ≤ 1 / 4 →
      linearGridLoop farOffsetArea 10 step fuel 0 [] = none := by
  refine ⟨by decide!, by decide!, by decide!, by decide!, by decide!, fun fuel => ?_,
    fun fuel => ?_, fun step fuel hstep => ?_⟩
  · exact linearGridLoop_farOffset_none farOffsetArea 10 (1 / 4) rfl rfl rfl rfl
      (by norm_num) fuel 0 [] (le_refl _) (by norm_num)
  · unfold RenderGrid
    simp only
    rw [linearGridLoop_farOffset_none _ 10 (1 / 4) rfl rfl rfl rfl (by norm_num) fuel 0 []
      (le_refl _) (by norm_num)]
    rfl
  · exact linearGridLoop_farOffset_none farOffsetArea 10 step rfl rfl rfl rfl
      ⟨hstep.1.le, hstep.2⟩ fuel 0 [] (le_refl _) (by norm_num)

end WaveformArea

namespace WaveformArea

open RenderDecodeOverlays

/-! ## Overlay rows never share a slot -/

theorem slotUsedBy_true_iff (m : Nat → Option Int) (l : List Nat) (i : Nat) :
    slotUsedBy m l i = true ↔
      ∃ o, o ∈ l ∧ ∃ pos, m o = some pos ∧ 0 ≤ pos ∧
        Int.tdiv (pos - midline) spacing = (i : Int) := by
  unfold slotUsedBy
  rw [List.any_eq_true]
  constructor
  · rintro ⟨o, ho, h⟩
    cases hm : m o with
    | none =>
      rw [hm] at h
      exact absurd h (Bool.false_ne_true)
    | some pos =>
      rw [hm] at h
      simp only [Bool.and_eq_true, decide_eq_true_eq] at h
      exact ⟨o, ho, pos, hm, h.1, h.2⟩
  · rintro ⟨o, ho, pos, hm, h0, hs⟩
    refine ⟨o, ho, ?_⟩
    rw [hm]
    simp only [Bool.and_eq_true, decide_eq_true_eq]
    exact ⟨h0, hs⟩

/-- When all ten slots are used by current overlays and one more current overlay has no entry,
there are at least eleven overlays. -/
theorem eleven_overlays_of_all_slots_used (m : Nat → Option Int) (m_overlays : List Nat)
    (o : Nat) (ho : o ∈ m_overlays) (hnone : m o = none)
    (hall : ∀ i, i < max_overlays → slotUsedBy m m_overlays i = true) :
    max_overlays + 1 ≤ m_overlays.length := by
  have hex : ∀ i : Nat, ∃ a, i < max_overlays →
      (a ∈ m_overlays ∧ ∃ pos, m a = some pos ∧ 0 ≤ pos ∧
        Int.tdiv (pos - midline) spacing = (i : Int)) := by
    intro i
    by_cases hi : i < max_overlays
    · obtain ⟨a, ha⟩ := (slotUsedBy_true_iff m m_overlays i).mp (hall i hi)
      exact ⟨a, fun _ => ha⟩
    · exact ⟨0, fun h => absurd h hi⟩
  choose f hf using hex
  have hinj : Set.InjOn f (Finset.range max_overlays : Set Nat) := by
    intro i hi j hj hij
    have hi2 : i < max_overlays := by simpa using hi
    have hj2 : j < max_overlays := by simpa using hj
    obtain ⟨_, p1, hp1, _, hs1⟩ := hf i hi2
    obtain ⟨_, p2, hp2, _, hs2⟩ := hf j hj2
    rw [hij, hp2] at hp1
    cases hp1
    have : (i : Int) = (j : Int) := by rw [← hs1, ← hs2]
    exact_mod_cast this
  have hsub : (Finset.range max_overlays).image f ⊆ m_overlays.toFinset.erase o := by
    intro a ha
    rw [Finset.mem_image] at ha
    obtain ⟨i, hi, hfa⟩ := ha
    have hi2 : i < max_overlays := by simpa using hi
    obtain ⟨hmem, p, hp, _, _⟩ := hf i hi2
    rw [Finset.mem_erase, List.mem_toFinset]
    refine ⟨?_, by rw [← hfa]; exact hmem⟩
    intro hao
    rw [hfa, hao, hnone] at hp
    exact Option.noConfusion hp
  have hcard := Finset.card_le_card hsub
  rw [Finset.card_image_of_injOn hinj, Finset.card_range,
    Finset.card_erase_of_mem (List.mem_toFinset.mpr ho)] at hcard
  have hle := List.toFinset_card_le m_overlays
  have hpos : 0 < m_overlays.toFinset.card :=
    Finset.card_pos.mpr ⟨o, List.mem_toFinset.mpr ho⟩
  omega

end WaveformArea

namespace WaveformArea

open RenderDecodeOverlays

theorem assignLoop_total_distinct (m_overlays : List Nat)
    (hlen : m_overlays.length ≤ max_overlays) (l : List Nat) :
    ∀ (st : (Nat → Option Int) × List Bool),
      (∀ o, o ∈ l → o ∈ m_overlays) → FlagsAgree m_overlays st →
      DistinctPositions m_overlays st.1 →
      DistinctPositions m_overlays (assignLoop l st).1 ∧
      ∀ o, o ∈ l → ∃ pos, (assignLoop l st).1 o = some pos := by
  induction l with
  | nil =>
    intro st _ _ hd
    exact ⟨hd, fun o ho => absurd ho (List.not_mem_nil o)⟩
  | cons o rest ih =>
    intro st hsub hinv hd
    obtain ⟨m, used⟩ := st
    have ho : o ∈ m_overlays := hsub o (List.mem_cons_self _ _)
    have hrest : ∀ a, a ∈ rest → a ∈ m_overlays := fun a ha => hsub a (List.mem_cons_of_mem _ ha)
    cases hm : m o with
    | some q =>
      have e : assignLoop (o :: rest) (m, used) = assignLoop rest (m, used) := by
        simp only [assignLoop, hm]
      rw [e]
      obtain ⟨h1, h2⟩ := ih (m, used) hrest hinv hd
      refine ⟨h1, fun a ha => ?_⟩
      rcases List.mem_cons.mp ha with hao | har
      · exact ⟨q, assignLoop_keeps rest (m, used) a q (by rw [hao]; exact hm)⟩
      · exact h2 a har
    | none =>
      rcases firstUnused_spec used with ⟨i0, hf, hi0, hclear, _⟩ | ⟨_, hall⟩
      · have e : assignLoop (o :: rest) (m, used) =
            assignLoop rest (setPosition m o (midline + spacing * (i0 : Int)),
              used.set i0 true) := by
          simp only [assignLoop, hm, hf]
        have hstep : assignLoop [o] (m, used) =
            (setPosition m o (midline + spacing * (i0 : Int)), used.set i0 true) := by
          simp only [assignLoop, hm, hf]
        have hinv2 : FlagsAgree m_overlays
            (setPosition m o (midline + spacing * (i0 : Int)), used.set i0 true) := by
          rw [← hstep]
          apply assignLoop_flagsAgree m_overlays [o] (m, used) _ hinv
          intro a ha
          rw [List.mem_singleton.mp ha]
          exact ho
        have hfree : slotUsedBy m m_overlays i0 = false := by
          have := hinv.2 i0 hi0
          simp only at this
          rw [← this]
          exact hclear
        have hnew : ∀ a, a ∈ m_overlays →
            m a ≠ some (midline + spacing * (i0 : Int)) := by
          intro a ha hma
          have hused : slotUsedBy m m_overlays i0 = true := by
            rw [slotUsedBy_true_iff]
            refine ⟨a, ha, _, hma, ?_, slotIndex_of_slot i0⟩
            have h15 : midline = 15 := by decide
            have h30 : spacing = 30 := by decide
            rw [h15, h30]
            omega
          rw [hfree] at hused
          exact Bool.false_ne_true hused
        have hd2 : DistinctPositions m_overlays
            (setPosition m o (midline + spacing * (i0 : Int))) := by
          intro o1 o2 pos h1 h2 hne hp1 hp2
          by_cases e1 : o1 = o
          · have e2 : o2 ≠ o := fun h => hne (by rw [e1, h])
            simp only [setPosition, e1, if_true, Option.some.injEq] at hp1
            simp only [setPosition, e2, if_false] at hp2
            rw [← hp1] at hp2
            exact hnew o2 h2 hp2
          · simp only [setPosition, e1, if_false] at hp1
            by_cases e2 : o2 = o
            · simp only [setPosition, e2, if_true, Option.some.injEq] at hp2
              rw [← hp2] at hp1
              exact hnew o1 h1 hp1
            · simp only [setPosition, e2, if_false] at hp2
              exact hd o1 o2 pos h1 h2 hne hp1 hp2
        rw [e]
        obtain ⟨h1, h2⟩ := ih _ hrest hinv2 hd2
        refine ⟨h1, fun a ha => ?_⟩
        rcases List.mem_cons.mp ha with hao | har
        · refine ⟨midline + spacing * (i0 : Int), assignLoop_keeps rest _ a _ ?_⟩
          simp only [setPosition, hao, if_true]
        · exact h2 a har
      · exfalso
        have hallused : ∀ i, i < max_overlays → slotUsedBy m m_overlays i = true := by
          intro i hi
          have := hinv.2 i hi
          simp only at this
          rw [← this]
          exact hall i hi
        have := eleven_overlays_of_all_slots_used m m_overlays o ho hm hallused
        omega

/-- C27: if at most ten decode overlays are present and the positions already stored for
current overlays are pairwise distinct, then after the assignment pass of
`RenderDecodeOverlays` every current overlay has a stored position and no two current overlays
have the same position. (That the stored positions lie on the slot grid is not needed.) -/
theorem assignPositions_no_shared_slot (m : Nat → Option Int) (m_overlays : List Nat)
    (hten : m_overlays.length ≤ 10) (hdistinct : DistinctPositions m_overlays m) :
    (∀ o, o ∈ m_overlays → ∃ pos, assignPositions m_overlays m o = some pos) ∧
    DistinctPositions m_overlays (assignPositions m_overlays m) := by
  have h := assignLoop_total_distinct m_overlays hten m_overlays
    (m, markUsed m m_overlays (List.replicate max_overlays false))
    (fun o ho => ho) (markUsed_flagsAgree m m_overlays) hdistinct
  exact ⟨h.2, h.1⟩

/-- C27, instance: overlay 1 already sits in slot 1 (position 45); overlays 2 and 3 are new.
After the pass they sit at 15 and 75. -/
theorem assignPositions_no_shared_slot_witness :
    ((∀ o, o ∈ [1, 2, 3] →
        ∃ pos, assignPositions [1, 2, 3] (setPosition noPositions 1 45) o = some pos) ∧
      DistinctPositions [1, 2, 3] (assignPositions [1, 2, 3] (setPosition noPositions 1 45))) ∧
    [1, 2, 3].map (assignPositions [1, 2, 3] (setPosition noPositions 1 45)) =
      [some 45, some 15, some 75] :=
  ⟨assignPositions_no_shared_slot (setPosition noPositions 1 45) [1, 2, 3] (by decide)
    (by
      intro o1 o2 pos _ _ hne h1 h2
      have e1 : o1 = 1 := by
        by_contra hc
        simp [setPosition, noPositions, hc] at h1
      have e2 : o2 = 1 := by
        by_contra hc
        simp [setPosition, noPositions, hc] at h2
      exact hne (by rw [e1, e2])),
    by decide⟩

/-- C28: for every stored position `pos` that is a 32-bit `int`, on the slot grid or not, the
guard `pos >= 0 && index < 10` with `index = (pos - 15) / 30` in truncating 32-bit arithmetic
implies `0 <= index < 10`: the write `overlayPositionsUsed[index]` is in bounds. The
subtraction does not wrap under the guard, so `index` is the index of the embedded loop. -/
theorem overlayPositionsUsed_write_in_bounds (pos : Int)
    (hint : -2 ^ 31 ≤ pos ∧ pos < 2 ^ 31)
    (hguard : pos ≥ 0 ∧ slotIndex32 pos < (max_overlays : Int)) :
    0 ≤ slotIndex32 pos ∧ slotIndex32 pos < 10 ∧
    (slotIndex32 pos).toNat < (List.replicate max_overlays false).length ∧
    slotIndex32 pos = Int.tdiv (pos - midline) spacing := by
  have h15 : midline = 15 := by decide
  have hwrap : wrapInt32 (pos - midline) = pos - midline := by
    unfold wrapInt32
    rw [h15]
    have h0 := hguard.1
    have h1 := hint.2
    omega
  have heq : slotIndex32 pos = Int.tdiv (pos - midline) spacing := by
    unfold slotIndex32
    rw [hwrap]
  have hnn := slotIndex_nonneg pos hguard.1
  have hlt := hguard.2
  rw [heq] at hlt ⊢
  have h10 : ((max_overlays : Nat) : Int) = 10 := by decide
  rw [h10] at hlt
  refine ⟨hnn, hlt, ?_, rfl⟩
  simp only [List.length_replicate]
  have h10n : max_overlays = 10 := rfl
  omega

/-- C28, instance: the position 0, which is off the slot grid, gives index 0. -/
theorem overlayPositionsUsed_write_in_bounds_witness :
    0 ≤ slotIndex32 0 ∧ slotIndex32 0 < 10 ∧
    (slotIndex32 0).toNat < (List.replicate max_overlays false).length ∧
    slotIndex32 0 = Int.tdiv (0 - midline) spacing :=
  overlayPositionsUsed_write_in_bounds 0 (by decide) (by decide)

end WaveformArea

namespace HistoryWindow

/-! ## History eviction -/

theorem countUnpinned_cons (row : HistoryRow) (rest : List HistoryRow) :
    countUnpinned (row :: rest) =
      (if row.m_pinned then 0 else 1) + countUnpinned rest := by
  unfold countUnpinned
  cases h : row.m_pinned with
  | true => simp [List.filter_cons, h]
  | false =>
    simp [List.filter_cons, h]
    omega

theorem removeOldestUnpinned_zero (rows : List HistoryRow) :
    removeOldestUnpinned 0 rows = rows := by
  cases rows <;> rfl

theorem deleteOldestUnpinned_none (rows : List HistoryRow) :
    deleteOldestUnpinned rows = none ↔ countUnpinned rows = 0 := by
  induction rows with
  | nil => simp [deleteOldestUnpinned, countUnpinned]
  | cons row rest ih =>
    rw [countUnpinned_cons]
    cases h : row.m_pinned with
    | true =>
      simp only [deleteOldestUnpinned, h, if_true, Option.map_eq_none', ih]
      omega
    | false =>
      simp only [deleteOldestUnpinned, h, Bool.false_eq_true, if_false]
      constructor
      · intro h2; exact Option.noConfusion h2
      · intro h2; omega

theorem deleteOldestUnpinned_some (rows remaining : List HistoryRow)
    (h : deleteOldestUnpinned rows = some remaining) :
    remaining = removeOldestUnpinned 1 rows ∧ remaining.length + 1 = rows.length ∧
    countUnpinned remaining + 1 = countUnpinned rows := by
  induction rows generalizing remaining with
  | nil => simp [deleteOldestUnpinned] at h
  | cons row rest ih =>
    cases hp : row.m_pinned with
    | true =>
      simp only [deleteOldestUnpinned, hp, if_true, Option.map_eq_some'] at h
      obtain ⟨r, hr, hrem⟩ := h
      obtain ⟨h1, h2, h3⟩ := ih r hr
      subst hrem
      refine ⟨?_, ?_, ?_⟩
      · simp only [removeOldestUnpinned, hp, if_true, h1]
      · simp only [List.length_cons]; omega
      · rw [countUnpinned_cons, countUnpinned_cons, hp]; simp only [if_true]; omega
    | false =>
      simp only [deleteOldestUnpinned, hp, Bool.false_eq_true, if_false,
        Option.some.injEq] at h
      subst h
      refine ⟨?_, ?_, ?_⟩
      · simp only [removeOldestUnpinned, hp, Bool.false_eq_true, if_false,
          removeOldestUnpinned_zero]
      · simp only [List.length_cons]
      · rw [countUnpinned_cons, hp]; simp only [Bool.false_eq_true, if_false]; omega

theorem removeOldestUnpinned_succ (k : Nat) (rows : List HistoryRow) :
    removeOldestUnpinned k (removeOldestUnpinned 1 rows) = removeOldestUnpinned (k + 1) rows := by
  induction rows with
  | nil => cases k <;> rfl
  | cons row rest ih =>
    cases hp : row.m_pinned with
    | true =>
      have e1 : removeOldestUnpinned 1 (row :: rest) = row :: removeOldestUnpinned 1 rest := by
        simp only [removeOldestUnpinned, hp, if_true]
      have e2 : removeOldestUnpinned (k + 1) (row :: rest) =
          row :: removeOldestUnpinned (k + 1) rest := by
        simp only [removeOldestUnpinned, hp, if_true]
      rw [e1, e2]
      cases k with
      | zero =>
        rw [removeOldestUnpinned_zero]
      | succ k =>
        have e3 : removeOldestUnpinned (k + 1) (row :: removeOldestUnpinned 1 rest) =
            row :: removeOldestUnpinned (k + 1) (removeOldestUnpinned 1 rest) := by
          simp only [removeOldestUnpinned, hp, if_true]
        rw [e3, ih]
    | false =>
      have e1 : removeOldestUnpinned 1 (row :: rest) = rest := by
        simp only [removeOldestUnpinned, hp, Bool.false_eq_true, if_false,
          removeOldestUnpinned_zero]
      have e2 : removeOldestUnpinned (k + 1) (row :: rest) = removeOldestUnpinned k rest := by
        simp only [removeOldestUnpinned, hp, Bool.false_eq_true, if_false]
      rw [e1, e2]

/-- The loop of the eviction ends: with more fuel than rows it returns the rows without the
`min (un-pinned rows) (size - nmax)` oldest un-pinned ones. -/
theorem clearLoop_some (nmax : Nat) :
    ∀ (fuel : Nat) (rows : List HistoryRow), rows.length < fuel →
      clearLoop nmax fuel rows =
        some (removeOldestUnpinned (min (countUnpinned rows) (rows.length - nmax)) rows) := by
  intro fuel
  induction fuel with
  | zero => intro rows h; omega
  | succ fuel ih =>
    intro rows h
    by_cases hgt : rows.length > nmax
    · cases hd : deleteOldestUnpinned rows with
      | none =>
        have hc := (deleteOldestUnpinned_none rows).mp hd
        simp only [clearLoop, hgt, if_true, hd, hc, Nat.zero_min, removeOldestUnpinned_zero]
      | some remaining =>
        obtain ⟨h1, h2, h3⟩ := deleteOldestUnpinned_some rows remaining hd
        simp only [clearLoop, hgt, if_true, hd]
        rw [ih remaining (by omega), h1, removeOldestUnpinned_succ, ← h1]
        congr 2
        omega
    · have h0 : rows.length - nmax = 0 := by omega
      simp only [clearLoop, hgt, if_false, h0, Nat.min_zero, removeOldestUnpinned_zero]

theorem removeOldestUnpinned_props : ∀ (k : Nat) (rows : List HistoryRow),
    (removeOldestUnpinned k rows).Sublist rows ∧
    (removeOldestUnpinned k rows).filter (fun row => row.m_pinned) =
      rows.filter (fun row => row.m_pinned) ∧
    (removeOldestUnpinned k rows).filter (fun row => !row.m_pinned) =
      (rows.filter (fun row => !row.m_pinned)).drop k ∧
    (removeOldestUnpinned k rows).length = rows.length - min k (countUnpinned rows) := by
  intro k rows
  induction rows generalizing k with
  | nil =>
    cases k <;> simp [removeOldestUnpinned, countUnpinned]
  | cons row rest ih =>
    cases k with
    | zero =>
      rw [removeOldestUnpinned_zero]
      simp
    | succ k =>
      cases hp : row.m_pinned with
      | true =>
        have e : removeOldestUnpinned (k + 1) (row :: rest) =
            row :: removeOldestUnpinned (k + 1) rest := by
          simp only [removeOldestUnpinned, hp, if_true]
        obtain ⟨h1, h2, h3, h4⟩ := ih (k + 1)
        rw [e, countUnpinned_cons, hp]
        refine ⟨h1.cons₂ row, ?_, ?_, ?_⟩
        · simp [List.filter_cons, hp, h2]
        · simp [List.filter_cons, hp, h3]
        · simp only [List.length_cons, h4, if_true]
          have := Nat.min_le_right (k + 1) (countUnpinned rest)
          have hc : countUnpinned rest ≤ rest.length := by
            unfold countUnpinned; exact List.length_filter_le _ _
          omega
      | false =>
        have e : removeOldestUnpinned (k + 1) (row :: rest) = removeOldestUnpinned k rest := by
          simp only [removeOldestUnpinned, hp, Bool.false_eq_true, if_false]
        obtain ⟨h1, h2, h3, h4⟩ := ih k
        rw [e, countUnpinned_cons, hp]
        refine ⟨h1.cons row, ?_, ?_, ?_⟩
        · simp [List.filter_cons, hp, h2]
        · simp [List.filter_cons, hp, h3]
        · simp only [List.length_cons, h4, Bool.false_eq_true, if_false]
          have := Nat.min_le_right k (countUnpinned rest)
          have hc : countUnpinned rest ≤ rest.length := by
            unfold countUnpinned; exact List.length_filter_le _ _
          omega

/-- C23 (as stated, refuted): with `-5` in the box, which parses to less than 1, the maximum
is not taken as 1: of two un-pinned rows none is removed, where a maximum of 1 removes the
older one. -/
theorem negative_maximum_removes_nothing :
    ((-5 : Int) < 1) ∧
    ClearOldHistoryItems (-5) twoRows = some twoRows ∧
    ClearOldHistoryItems (-5) twoRows ≠
      some (removeOldestUnpinned (min (countUnpinned twoRows) (twoRows.length - 1)) twoRows) ∧
    ClearOldHistoryItems 1 twoRows =
      some (removeOldestUnpinned (min (countUnpinned twoRows) (twoRows.length - 1)) twoRows) := by
  decide

/-- C23 (amended): for every list of history rows and every maximum `n >= 0` parsed from the
box (taken as 1 when it parses to 0), `ClearOldHistoryItems` terminates and removes exactly the
`k` oldest un-pinned rows, `k = min (number of un-pinned rows) (size - n)`; it removes no
pinned row, keeps the surviving rows in their original order, and afterwards either
`size <= n` or every remaining row is pinned. -/
theorem ClearOldHistoryItems_evicts_oldest_unpinned (parsed : Int) (rows : List HistoryRow)
    (hnonneg : 0 ≤ parsed) (hint : parsed < 2 ^ 31) :
    ClearOldHistoryItems parsed rows =
      some (removeOldestUnpinned
        (min (countUnpinned rows) (rows.length - max 1 parsed.toNat)) rows) ∧
    (∀ fuel, rows.length < fuel →
      clearLoop (clampedMax parsed) fuel rows = ClearOldHistoryItems parsed rows) ∧
    ∀ remaining, ClearOldHistoryItems parsed rows = some remaining →
      remaining.Sublist rows ∧
      remaining.filter (fun row => row.m_pinned) = rows.filter (fun row => row.m_pinned) ∧
      remaining.filter (fun row => !row.m_pinned) =
        (rows.filter (fun row => !row.m_pinned)).drop
          (min (countUnpinned rows) (rows.length - max 1 parsed.toNat)) ∧
      remaining.length =
        rows.length - min (countUnpinned rows) (rows.length - max 1 parsed.toNat) ∧
      (remaining.length ≤ max 1 parsed.toNat ∨ countUnpinned remaining = 0) := by
  have hmax : clampedMax parsed = max 1 parsed.toNat := by
    unfold clampedMax
    have hmod : parsed % 2 ^ 64 = parsed := Int.emod_eq_of_lt hnonneg (by omega)
    rw [hmod]
    split <;> omega
  have hres : ClearOldHistoryItems parsed rows =
      some (removeOldestUnpinned
        (min (countUnpinned rows) (rows.length - max 1 parsed.toNat)) rows) := by
    unfold ClearOldHistoryItems
    rw [clearLoop_some _ _ _ (Nat.lt_succ_self _), hmax]
  refine ⟨hres, fun fuel hfuel => ?_, fun remaining hrem => ?_⟩
  · rw [hres, clearLoop_some _ _ _ hfuel, hmax]
  · rw [hres] at hrem
    cases hrem
    obtain ⟨h1, h2, h3, h4⟩ := removeOldestUnpinned_props
      (min (countUnpinned rows) (rows.length - max 1 parsed.toNat)) rows
    have hk : min (min (countUnpinned rows) (rows.length - max 1 parsed.toNat))
        (countUnpinned rows) = min (countUnpinned rows) (rows.length - max 1 parsed.toNat) := by
      omega
    rw [hk] at h4
    refine ⟨h1, h2, h3, h4, ?_⟩
    have hcount : countUnpinned (removeOldestUnpinned
        (min (countUnpinned rows) (rows.length - max 1 parsed.toNat)) rows) =
        countUnpinned rows - min (countUnpinned rows) (rows.length - max 1 parsed.toNat) := by
      have hlen := congrArg List.length h3
      rw [List.length_drop] at hlen
      exact hlen
    rw [h4, hcount]
    omega

/-- C23 (amended), instance: four rows, the second pinned, and a maximum of 2: the two oldest
un-pinned rows go, the pinned row and the newest row stay. -/
theorem ClearOldHistoryItems_evicts_oldest_unpinned_witness :
    ClearOldHistoryItems 2 fourRows =
      some (removeOldestUnpinned
        (min (countUnpinned fourRows) (fourRows.length - max 1 (2 : Int).toNat)) fourRows) ∧
    (ClearOldHistoryItems 2 fourRows).map (fun rows => rows.map (fun row => row.m_history)) =
      some [2, 4] :=
  ⟨(ClearOldHistoryItems_evicts_oldest_unpinned 2 fourRows (by decide) (by decide)).1,
    by decide⟩

end HistoryWindow

namespace HistoryWindow

/-! ## Labels and pins -/

/-- C24: after `OnRowChanged` runs on a top-level history row, a row whose label is non-empty
has `pinned = true`, a row whose label is empty keeps its pinned flag, and no other column of
the row changes. -/
theorem OnRowChanged_label_pins (pathSize : Nat) (row : HistoryRow) (htop : pathSize ≤ 1) :
    (row.m_label ≠ "" → (OnRowChanged pathSize row).m_pinned = true) ∧
    (row.m_label = "" → (OnRowChanged pathSize row).m_pinned = row.m_pinned) ∧
    OnRowChanged pathSize row = { row with m_pinned := (OnRowChanged pathSize row).m_pinned } := by
  have hp : ¬ pathSize > 1 := by omega
  obtain ⟨ts, ds, key, hist, pinned, label, off, marker, pv⟩ := row
  unfold OnRowChanged
  simp only [hp, if_false]
  by_cases hl : label = "" <;> cases pinned <;> simp [hl]

/-- C24, instance: an un-pinned row that has just been given the label "glitch". -/
theorem OnRowChanged_label_pins_witness :
    ((({ m_timestamp := "10:00:00.0000000000", m_datestamp := "2020-01-01",
          m_capturekey := (100, 0), m_history := 1, m_pinned := false, m_label := "glitch",
          m_offset := 0, m_marker := none, m_pinvisible := true } : HistoryRow).m_label ≠ "" →
      (OnRowChanged 1
        { m_timestamp := "10:00:00.0000000000", m_datestamp := "2020-01-01",
          m_capturekey := (100, 0), m_history := 1, m_pinned := false, m_label := "glitch",
          m_offset := 0, m_marker := none, m_pinvisible := true }).m_pinned = true)) ∧
    OnRowChanged 1
        { m_timestamp := "10:00:00.0000000000", m_datestamp := "2020-01-01",
          m_capturekey := (100, 0), m_history := 1, m_pinned := false, m_label := "glitch",
          m_offset := 0, m_marker := none, m_pinvisible := true } =
      { m_timestamp := "10:00:00.0000000000", m_datestamp := "2020-01-01",
        m_capturekey := (100, 0), m_history := 1, m_pinned := true, m_label := "glitch",
        m_offset := 0, m_marker := none, m_pinvisible := true } :=
  ⟨(OnRowChanged_label_pins 1 _ (by decide)).1, by decide⟩

/-! ## FormatTimestamp -/

/-- C25 (the code at the failing input): for an offset of 99999 fs the number printed is 0,
which is 99999 fs away, more than half of 100 ps; the nearest multiple count is 1. -/
theorem FormatTimestamp_truncates :
    FormatTimestamp 0 99999 = (0, 0) ∧
    printZeroPadded10 (FormatTimestamp 0 99999).2 = "0000000000" ∧
    ¬ (|(99999 : Int) - ((FormatTimestamp 0 99999).2 : Int) * 10 ^ 5| ≤ 5 * 10 ^ 4) ∧
    |(99999 : Int) - 1 * 10 ^ 5| ≤ 5 * 10 ^ 4 := by
  decide!

/-- What `FormatTimestamp` prints for an offset below a second: the offset divided by 10^5,
rounded down. -/
theorem FormatTimestamp_floor (base offset : Int) (h0 : 0 ≤ offset)
    (h1 : offset < FS_PER_SECOND) :
    (FormatTimestamp base offset).1 = base ∧
    ((FormatTimestamp base offset).2 : Int) = offset / 10 ^ 5 ∧
    ((FormatTimestamp base offset).2 : Int) * 10 ^ 5 ≤ offset ∧
    offset < ((FormatTimestamp base offset).2 : Int) * 10 ^ 5 + 10 ^ 5 := by
  have hfs : FS_PER_SECOND = 10 ^ 15 := rfl
  rw [hfs] at h1
  have hnot : ¬ offset > FS_PER_SECOND := by rw [hfs]; omega
  have hdiv : Int.tdiv offset 100000 = offset / 100000 := Int.tdiv_eq_ediv h0 (by decide)
  have hval : (FormatTimestamp base offset).2 = (offset / 100000 % 2 ^ 64).toNat := by
    unfold FormatTimestamp
    simp only [hnot, if_false, hdiv]
  have hbase : (FormatTimestamp base offset).1 = base := by
    unfold FormatTimestamp
    simp only [hnot, if_false]
  have hmod : offset / 100000 % 2 ^ 64 = offset / 100000 :=
    Int.emod_eq_of_lt (by omega) (by omega)
  rw [hval, hmod, hbase]
  have hnn : 0 ≤ offset / 100000 := by omega
  rw [Int.toNat_of_nonneg hnn]
  refine ⟨rfl, by norm_num, ?_, ?_⟩ <;> omega

/-- C29 (the code at the failing input): an offset of exactly one second, 10^15 fs, is not
moved into the base time (the test is `offset > FS_PER_SECOND`); the number printed is 10^10,
eleven digits in the ten-digit field. One femtosecond more is moved and prints ten zeros. -/
theorem FormatTimestamp_one_second_overflows_field :
    FormatTimestamp 0 (10 ^ 15) = (0, 10 ^ 10) ∧
    ¬ ((FormatTimestamp 0 (10 ^ 15)).2 < 10 ^ 10) ∧
    printZeroPadded10 (FormatTimestamp 0 (10 ^ 15)).2 = "10000000000" ∧
    (printZeroPadded10 (FormatTimestamp 0 (10 ^ 15)).2).length = 11 ∧
    FormatTimestamp 0 (10 ^ 15 + 1) = (1, 0) := by
  decide!

/-- For every offset `>= 0` other than exactly one second, the number `FormatTimestamp` prints
is below 10^10. -/
theorem FormatTimestamp_fits_field (base offset : Int) (h0 : 0 ≤ offset)
    (hne : offset ≠ FS_PER_SECOND) : (FormatTimestamp base offset).2 < 10 ^ 10 := by
  have hfs : FS_PER_SECOND = 10 ^ 15 := rfl
  by_cases hgt : offset > FS_PER_SECOND
  · have hval : (FormatTimestamp base offset).2 =
        (Int.tdiv (Int.tmod offset FS_PER_SECOND) 100000 % 2 ^ 64).toNat := by
      unfold FormatTimestamp
      simp only [hgt, if_true]
    rw [hval, hfs, Int.tmod_eq_emod h0 (by decide),
      Int.tdiv_eq_ediv (by omega) (by decide)]
    have hmod : offset % 10 ^ 15 / 100000 % 2 ^ 64 = offset % 10 ^ 15 / 100000 :=
      Int.emod_eq_of_lt (by omega) (by omega)
    rw [hmod]
    omega
  · have hlt : offset < 10 ^ 15 := by
      rw [hfs] at hgt hne
      omega
    have h := (FormatTimestamp_floor base offset h0 (by rw [hfs]; exact hlt)).2.1
    have h2 : ((FormatTimestamp base offset).2 : Int) < 10 ^ 10 := by
      rw [h]; omega
    exact_mod_cast h2

end HistoryWindow

namespace HistoryWindow

/-! ## Sparse waveform file -/

theorem copySamples_length (wave : AnalogWaveform) :
    ∀ (count i : Nat), (copySamples wave count i).length = count := by
  intro count
  induction count with
  | zero => intro i; rfl
  | succ n ih => intro i; simp [copySamples, ih]

theorem copySamples_getElem? (wave : AnalogWaveform) :
    ∀ (count i j : Nat), j < count →
      (copySamples wave count i)[j]? =
        some { off := wave.m_offsets.getD (i + j) 0
               dur := wave.m_durations.getD (i + j) 0
               voltage := wave.m_samples.getD (i + j) 0 } := by
  intro count
  induction count with
  | zero => intro i j h; omega
  | succ n ih =>
    intro i j h
    cases j with
    | zero => simp [copySamples]
    | succ j =>
      simp only [copySamples, List.getElem?_cons_succ]
      rw [ih (i + 1) j (by omega)]
      have e : i + 1 + j = i + (j + 1) := by omega
      rw [e]

/-- The write loop ends: with at least `len - i` iterations allowed it returns blocks whose
concatenation is the samples from index `i` on; block `b` has `min (len - i - b*10000) 10000`
samples. -/
theorem writeLoop_some (samples : List asample_t) :
    ∀ (fuel i : Nat), samples.length - i ≤ fuel →
      ∃ blocks, writeLoop samples fuel i = some blocks ∧
        blocks.flatten = samples.drop i ∧
        ∀ (b : Nat) (blk : List asample_t), blocks[b]? = some blk →
          blk.length = min (samples.length - (i + b * samples_per_block)) samples_per_block ∧
          blk = (samples.drop (i + b * samples_per_block)).take samples_per_block := by
  intro fuel
  induction fuel with
  | zero =>
    intro i h
    have hnot : ¬ i < samples.length := by omega
    refine ⟨[], by simp only [writeLoop, hnot, if_false], ?_, ?_⟩
    · rw [List.drop_eq_nil_of_le (by omega)]
      rfl
    · intro b blk hb
      simp at hb
  | succ fuel ih =>
    intro i h
    by_cases hlt : i < samples.length
    · have hspb : samples_per_block = 10000 := rfl
      obtain ⟨rest, hrest, hjoin, hblocks⟩ := ih (i + samples_per_block) (by omega)
      have htake : (samples.drop i).take (min (samples.length - i) samples_per_block) =
          (samples.drop i).take samples_per_block := by
        rcases Nat.le_total (samples.length - i) samples_per_block with hle | hle
        · rw [Nat.min_eq_left hle, List.take_of_length_le (by simp),
            List.take_of_length_le (by simp; omega)]
        · rw [Nat.min_eq_right hle]
      refine ⟨((samples.drop i).take samples_per_block) :: rest, ?_, ?_, ?_⟩
      · simp only [writeLoop, hlt, if_true, hrest, Option.map_some', htake]
      · rw [List.flatten_cons, hjoin]
        have e : samples.drop (i + samples_per_block) =
            (samples.drop i).drop samples_per_block := by
          rw [List.drop_drop, Nat.add_comm]
        rw [e, List.take_append_drop]
      · intro b blk hb
        cases b with
        | zero =>
          simp only [List.getElem?_cons_zero, Option.some.injEq] at hb
          subst hb
          simp only [Nat.zero_mul, Nat.add_zero, List.length_take, List.length_drop]
          exact ⟨Nat.min_comm _ _, trivial⟩
        | succ b =>
          simp only [List.getElem?_cons_succ] at hb
          have := hblocks b blk hb
          have e : i + samples_per_block + b * samples_per_block =
              i + (b + 1) * samples_per_block := by ring
          rw [e] at this
          exact this
    · refine ⟨[], by simp only [writeLoop, hlt, if_false], ?_, ?_⟩
      · rw [List.drop_eq_nil_of_le (by omega)]
        rfl
      · intro b blk hb
        simp at hb

/-- C26: for every sparse analog waveform with `len` samples (any `len`, 0 and the multiples of
10000 included), `DoSaveWaveformDataForSparseStream` ends and the blocks it writes,
concatenated, are exactly the `len` records `(offset_i, duration_i, voltage_i)` for
`i = 0 .. len-1`, in order and each once; block `b` has `min (len - b*10000) 10000` records and
the block lengths sum to `len`. -/
theorem sparse_blocks_are_the_records (wave : AnalogWaveform) :
    ∃ blocks, DoSaveWaveformDataForSparseStream wave = some blocks ∧
      blocks.flatten.length = wave.m_offsets.length ∧
      (∀ (i : Nat) (o d : Int) (v : ℚ), wave.m_offsets[i]? = some o →
        wave.m_durations[i]? = some d → wave.m_samples[i]? = some v →
        blocks.flatten[i]? = some { off := o, dur := d, voltage := v }) ∧
      (blocks.map List.length).sum = wave.m_offsets.length ∧
      ∀ (b : Nat) (blk : List asample_t), blocks[b]? = some blk →
        blk.length = min (wave.m_offsets.length - b * 10000) 10000 := by
  obtain ⟨blocks, h1, h2, h3⟩ := writeLoop_some (copySamples wave wave.m_offsets.length 0)
    wave.m_offsets.length 0 (by rw [copySamples_length]; omega)
  have hlen : blocks.flatten.length = wave.m_offsets.length := by
    rw [h2, List.drop_zero, copySamples_length]
  refine ⟨blocks, h1, hlen, ?_, ?_, ?_⟩
  · intro i o d v ho hd hv
    have hi : i < wave.m_offsets.length := (List.getElem?_eq_some.mp ho).1
    rw [h2, List.drop_zero, copySamples_getElem? wave _ 0 i hi]
    simp only [Nat.zero_add, List.getD_eq_getElem?_getD, ho, hd, hv, Option.getD_some]
  · rw [← List.length_flatten, hlen]
  · intro b blk hb
    have := (h3 b blk hb).1
    rw [copySamples_length, Nat.zero_add] at this
    exact this

/-- C26, instance: a waveform of three samples is written as one block of its three records;
an empty waveform writes no block. -/
theorem sparse_blocks_are_the_records_example :
    DoSaveWaveformDataForSparseStream
        { m_offsets := [0, 10, 25], m_durations := [10, 15, 5], m_samples := [1 / 2, -1, 3] } =
      some [[{ off := 0, dur := 10, voltage := 1 / 2 }, { off := 10, dur := 15, voltage := -1 },
        { off := 25, dur := 5, voltage := 3 }]] ∧
    DoSaveWaveformDataForSparseStream { m_offsets := [], m_durations := [], m_samples := [] } =
      some [] := by
  decide!

end HistoryWindow
